import Mathlib

/-!
Verification of the maze A* repository (src/main.py) against its specification.

The embedding models the Python module shallowly:
* cell strings ("o", WALL_STR, START_STR, GOAL_STR, CHECKED_STR, PATH_STR) become
  the inductive type Cell (the five colour-coded marker strings are pairwise
  distinct, so an enumerated type is a faithful image);
* a maze (list of list of str) becomes List (List Cell);
* coordinates are pairs of integers, as in Python (subtraction may go negative
  before the bounds filter of get_neighbors runs);
* Python dicts (came_from, g_score, f_score) become association lists whose
  lookup returns the first matching key and whose update replaces in place;
* the heapq frontier becomes a list viewed as a multiset: heappop returns the
  least element of the heap, and since the code pushes a coordinate only when
  it is absent from the frontier, all entries are pairwise distinct, so the
  least element is unique and popping it is a function of the multiset;
* the Python while loop becomes a fuel-indexed loop; the fuel bound is proved
  sufficient (claim on termination), so the fuel-out branch is unreachable;
* random.randint(a, b) becomes a reader of an abstract stream of naturals,
  mapped into [a, b]; it fails (Python ValueError) exactly when b < a.
-/

namespace AStarMaze

/-- Cell states of the maze: the pairwise-distinct marker strings of main.py.
o is the open cell "o"; wall, start, goal, checked, pathMark are WALL_STR,
START_STR, GOAL_STR, CHECKED_STR, PATH_STR. -/
inductive Cell where
  | o : Cell
  | wall : Cell
  | start : Cell
  | goal : Cell
  | checked : Cell
  | pathMark : Cell
deriving DecidableEq, Repr

/-- A grid coordinate (row, column); integers, as in the Python source. -/
abbrev Coord : Type := ℤ × ℤ

/-- A maze: list of rows of cells, mirroring list[list[str]]. -/
abbrev Maze : Type := List (List Cell)

/-- Reading maze[p.1][p.2]; none models an out-of-range access (IndexError). -/
def cellAt (maze : Maze) (p : Coord) : Option Cell :=
  if 0 ≤ p.1 ∧ 0 ≤ p.2 then
    (maze[p.1.toNat]?).bind (fun row => row[p.2.toNat]?)
  else none

/-- Writing maze[p.1][p.2] = c. Out-of-range writes are dropped; the source
only ever writes at coordinates previously validated in bounds. -/
def setCell (maze : Maze) (p : Coord) (c : Cell) : Maze :=
  if 0 ≤ p.1 ∧ 0 ≤ p.2 then
    match maze[p.1.toNat]? with
    | some row => maze.set p.1.toNat (row.set p.2.toNat c)
    | none => maze
  else maze

/-- Association-list lookup: the value stored for the first matching key,
mirroring a Python dict read. -/
def getv {α β : Type} [DecidableEq α] : List (α × β) → α → Option β
  | [], _ => none
  | (k, v) :: t, a => if k = a then some v else getv t a

/-- Association-list update: replace the binding of the key in place, or
append a fresh binding, mirroring a Python dict write. -/
def setv {α β : Type} [DecidableEq α] : List (α × β) → α → β → List (α × β)
  | [], a, b => [(a, b)]
  | (k, v) :: t, a, b => if k = a then (a, b) :: t else (k, v) :: setv t a b

/-- find_positions of main.py: scan the maze row-major; remember the last
coordinate holding the start marker and the last holding the goal marker. -/
def find_positions (maze : Maze) (start_marker goal_marker : Cell) :
    Option Coord × Option Coord :=
  maze.enum.foldl
    (fun acc row =>
      row.2.enum.foldl
        (fun acc2 cell =>
          if cell.2 = start_marker then (some ((row.1 : ℤ), (cell.1 : ℤ)), acc2.2)
          else if cell.2 = goal_marker then (acc2.1, some ((row.1 : ℤ), (cell.1 : ℤ)))
          else acc2)
        acc)
    (none, none)

/-- heuristic of main.py: Manhattan distance between two coordinates. -/
def heuristic (a b : Coord) : ℕ :=
  (a.1 - b.1).natAbs + (a.2 - b.2).natAbs

/-- Number of columns the source reads: len(maze[0]). -/
def colCount (maze : Maze) : ℕ := (maze.headD []).length

/-- get_neighbors of main.py: the four orthogonal candidates filtered to the
rectangle [0, len(maze)) x [0, len(maze[0])). -/
def get_neighbors (maze : Maze) (position : Coord) : List Coord :=
  [(position.1 + 1, position.2), (position.1 - 1, position.2),
   (position.1, position.2 + 1), (position.1, position.2 - 1)].filter
    (fun n => decide (0 ≤ n.1 ∧ n.1 < (maze.length : ℤ) ∧
                      0 ≤ n.2 ∧ n.2 < (colCount maze : ℤ)))

/-- Frontier entries are (f_score, coordinate) pairs; compare lexicographically
as Python compares the corresponding tuples. -/
def entryLtb (a b : ℕ × Coord) : Bool :=
  decide (a.1 < b.1 ∨ (a.1 = b.1 ∧ (a.2.1 < b.2.1 ∨
    (a.2.1 = b.2.1 ∧ a.2.2 < b.2.2))))

/-- Least entry of the frontier (first occurrence among equals). -/
def minEntry : List (ℕ × Coord) → Option (ℕ × Coord)
  | [] => none
  | e :: t =>
    match minEntry t with
    | none => some e
    | some m => some (if entryLtb m e then m else e)

/-- Remove the first occurrence of an element. -/
def removeFirst {α : Type} [DecidableEq α] : List α → α → List α
  | [], _ => []
  | x :: t, a => if x = a then t else x :: removeFirst t a

/-- heapq.heappop on the frontier: return the least entry and the remaining
multiset. Entries are pairwise distinct in every reachable state (a coordinate
is pushed only when absent), so the least entry is unique and this is exactly
the heap's behaviour. -/
def popMin (os : List (ℕ × Coord)) : Option ((ℕ × Coord) × List (ℕ × Coord)) :=
  match minEntry os with
  | none => none
  | some m => some (m, removeFirst os m)

/-- The search state of one a_star invocation: the (mutated) maze together
with the four bookkeeping structures of main.py. -/
structure SState where
  maze : Maze
  open_set : List (ℕ × Coord)
  came_from : List (Coord × Coord)
  g_score : List (Coord × ℕ)
  f_score : List (Coord × ℕ)
deriving DecidableEq, Repr

/-- Body of the inner for-loop of a_star (main.py lines 115-130) for one
neighbor: skip walls; relax when the tentative score improves the recorded
one (update came_from, g_score, f_score, and push onto the frontier only if
the coordinate has no entry there); finally mark non-marker cells CHECKED.
g_score[current] always succeeds in the source (current was popped from the
frontier and every frontier coordinate is recorded); the getD default is
never read. -/
def visit_neighbor (goal current : Coord) (s : SState) (neighbor : Coord) :
    SState :=
  if cellAt s.maze neighbor = some Cell.wall then s
  else
    let tentative := (getv s.g_score current).getD 0 + 1
    let improved : Bool :=
      match getv s.g_score neighbor with
      | none => true
      | some g => decide (tentative < g)
    let s1 :=
      if improved then
        let f := tentative + heuristic neighbor goal
        { s with
          came_from := setv s.came_from neighbor current
          g_score := setv s.g_score neighbor tentative
          f_score := setv s.f_score neighbor f
          open_set :=
            if s.open_set.any (fun e => decide (e.2 = neighbor)) then s.open_set
            else s.open_set ++ [(f, neighbor)] }
      else s
    if cellAt s1.maze neighbor = some Cell.start ∨
       cellAt s1.maze neighbor = some Cell.goal then s1
    else { s1 with maze := setCell s1.maze neighbor Cell.checked }

/-- One whole iteration body after popping current: process the neighbors of
current (computed once, from the maze as it is at the start of the
iteration) left to right. -/
def expand (goal current : Coord) (s : SState) (rest : List (ℕ × Coord)) :
    SState :=
  (get_neighbors s.maze current).foldl (visit_neighbor goal current)
    { s with open_set := rest }

/-- Walking came_from backwards from a coordinate, collecting the visited
coordinates in append order (the Python while loop in lines 109-112). The
fuel passed by a_star provably exceeds the chain length. -/
def reconstruct : ℕ → List (Coord × Coord) → Coord → List Coord
  | 0, _, _ => []
  | fuel + 1, cf, cur =>
    match getv cf cur with
    | some prev => cur :: reconstruct fuel cf prev
    | none => []

/-- Result of the search loop; fuelOut marks fuel exhaustion and is proved
unreachable for the fuel a_star passes. -/
inductive RunRes where
  | found : List Coord → RunRes
  | nopath : RunRes
  | fuelOut : RunRes
deriving DecidableEq, Repr

/-- The while loop of a_star (lines 105-132): pop the least frontier entry;
on the goal, rebuild the path from came_from and reverse it; otherwise relax
the neighbors and continue; an emptied frontier yields the no-path result. -/
def loop (goal : Coord) : ℕ → SState → RunRes
  | 0, _ => RunRes.fuelOut
  | fuel + 1, s =>
    match popMin s.open_set with
    | none => RunRes.nopath
    | some ((_, current), rest) =>
      if current = goal then
        RunRes.found ((reconstruct (s.came_from.length + 1) s.came_from current).reverse)
      else loop goal fuel (expand goal current s rest)

/-- Initial search state (lines 100-103): frontier [(0, start)],
g_score[start] = 0, f_score[start] = h(start, goal). -/
def init_state (maze : Maze) (st goal : Coord) : SState :=
  { maze := maze
    open_set := [(0, st)]
    came_from := []
    g_score := [(st, 0)]
    f_score := [(st, heuristic st goal)] }

/-- Number of cells the dimensions describe. -/
def cellCount (maze : Maze) : ℕ := maze.length * colCount maze

/-- Fuel passed to the loop; proved to exceed the number of iterations of
any run (see the termination claim). -/
def fuelBound (maze : Maze) : ℕ :=
  2 * cellCount maze * (cellCount maze + 1) + 2

/-- a_star of main.py up to the fuel marker: locate the markers (missing
markers yield the same None as an exhausted frontier - lines 96-98 and 132),
then run the search loop. -/
def a_starRun (maze : Maze) : RunRes :=
  match find_positions maze Cell.start Cell.goal with
  | (some st, some gl) => loop gl (fuelBound maze) (init_state maze st gl)
  | _ => RunRes.nopath

/-- a_star of main.py: a path as a list of coordinates, or None. -/
def a_star (maze : Maze) : Option (List Coord) :=
  match a_starRun maze with
  | RunRes.found p => some p
  | _ => none

/-- One observable iteration of the search loop (identity once the loop has
returned); used to state reachable-state properties of the loop. -/
def advance (goal : Coord) (s : SState) : SState :=
  match popMin s.open_set with
  | none => s
  | some ((_, current), rest) =>
    if current = goal then s else expand goal current s rest

/-- The search state after k iterations of the loop on the given maze (none
when a marker is missing and the loop never starts). -/
def stateAfter (maze : Maze) (k : ℕ) : Option SState :=
  match find_positions maze Cell.start Cell.goal with
  | (some st, some gl) => some ((advance gl)^[k] (init_state maze st gl))
  | _ => none

/-! Maze generation (main.py lines 153-202). The global random module is
modelled as an abstract stream of naturals read at an advancing position;
randint(a, b) maps the next stream value into [a, b] and fails - Python
raises ValueError - exactly when the range is empty (b < a). -/

/-- A state of the random number generator: an infinite stream of draws. -/
abbrev RandS : Type := ℕ → ℕ

/-- Failure vocabulary for generation. valueErrorEmptyRange is the ValueError
random.randint raises on an empty range - the only failure the code can
produce. invalidDimensions is the distinct error the specification demands;
it exists only so the specified behaviour can be stated and compared. -/
inductive GenErr where
  | invalidDimensions : GenErr
  | valueErrorEmptyRange : GenErr
deriving DecidableEq, Repr

instance decEqExcept {α β : Type} [DecidableEq α] [DecidableEq β] :
    DecidableEq (Except α β)
  | Except.error a, Except.error b =>
    if h : a = b then isTrue (by rw [h])
    else isFalse (fun hh => h (by injection hh))
  | Except.error _, Except.ok _ => isFalse (fun hh => Except.noConfusion hh)
  | Except.ok _, Except.error _ => isFalse (fun hh => Except.noConfusion hh)
  | Except.ok a, Except.ok b =>
    if h : a = b then isTrue (by rw [h])
    else isFalse (fun hh => h (by injection hh))

/-- random.randint(a, b): uniform on the inclusive range [a, b]; raises on an
empty range. The stream value is mapped into the range by a modulus, so every
value of [a, b] is realised by some stream. -/
def randint (s : RandS) (p : ℕ) (a b : ℤ) : Except GenErr (ℤ × ℕ) :=
  if b < a then Except.error GenErr.valueErrorEmptyRange
  else Except.ok (a + ((s p : ℤ) % (b - a + 1)), p + 1)

/-- is_valid_wall_location of main.py: a cell may become a wall unless it is
the start or goal cell or one of its in-range orthogonal neighbours is; the
border sentinel "" becomes none. -/
def is_valid_wall_location (maze : Maze) (c : Coord) : Bool :=
  if cellAt maze c = some Cell.start ∨ cellAt maze c = some Cell.goal then false
  else
    let ns : List (Option Cell) :=
      [if 0 < c.1 then cellAt maze (c.1 - 1, c.2) else none,
       if c.1 < (maze.length : ℤ) - 1 then cellAt maze (c.1 + 1, c.2) else none,
       if 0 < c.2 then cellAt maze (c.1, c.2 - 1) else none,
       if c.2 < (colCount maze : ℤ) - 1 then cellAt maze (c.1, c.2 + 1) else none]
    !(ns.any (fun v => decide (v = some Cell.start)) ||
      ns.any (fun v => decide (v = some Cell.goal)))

/-- The wall-placement double loop of generate_maze (lines 174-178): for each
cell in row-major order draw randint(0, 100) and place a wall when the draw
is below 35 and the location is valid. -/
def place_walls (s : RandS) : List Coord → Maze → ℕ → Except GenErr (Maze × ℕ)
  | [], m, p => Except.ok (m, p)
  | c :: rest, m, p =>
    match randint s p 0 100 with
    | Except.error e => Except.error e
    | Except.ok (r, p1) =>
      place_walls s rest
        (if decide (r < 35) && is_valid_wall_location m c then
          setCell m c Cell.wall
        else m) p1

/-- Row-major enumeration of the cells of an x-by-y grid. -/
def cellsList (x y : ℕ) : List Coord :=
  (List.range x).flatMap
    (fun i => (List.range y).map (fun j => (Int.ofNat i, Int.ofNat j)))

/-- generate_maze of main.py, also exposing the sampled start and end
coordinates and the final stream position. Python // is floor division,
Int.fdiv. The start row and column are drawn first, then the end row and
column, then one draw per cell for walls. The goal marker is written after
the start marker and overwrites it when the two coordinates coincide. -/
def generate_mazeFull (s : RandS) (p : ℕ) (x y : ℤ) :
    Except GenErr (Maze × Coord × Coord × ℕ) :=
  let maze0 : Maze := List.replicate x.toNat (List.replicate y.toNat Cell.o)
  match randint s p 0 (Int.fdiv x 3) with
  | Except.error e => Except.error e
  | Except.ok (sr, p1) =>
    match randint s p1 0 (Int.fdiv y 3) with
    | Except.error e => Except.error e
    | Except.ok (sc, p2) =>
      match randint s p2 (Int.fdiv (2 * x) 3) (x - 1) with
      | Except.error e => Except.error e
      | Except.ok (er, p3) =>
        match randint s p3 (Int.fdiv (2 * y) 3) (y - 1) with
        | Except.error e => Except.error e
        | Except.ok (ec, p4) =>
          let st : Coord := (sr, sc)
          let en : Coord := (er, ec)
          let maze2 := setCell (setCell maze0 st Cell.start) en Cell.goal
          match place_walls s (cellsList x.toNat y.toNat) maze2 p4 with
          | Except.error e => Except.error e
          | Except.ok (mz, pF) => Except.ok (mz, st, en, pF)

/-- generate_maze as the source returns it: just the grid. -/
def generate_maze (s : RandS) (p : ℕ) (x y : ℤ) : Except GenErr Maze :=
  match generate_mazeFull s p x y with
  | Except.error e => Except.error e
  | Except.ok (mz, _, _, _) => Except.ok mz

/-- Number of stream draws a successful generation consumes: four for the
marker coordinates and one per cell for walls. -/
def drawCount (x y : ℤ) : ℕ := 4 + x.toNat * y.toNat

/-! Specification-side vocabulary used to state the claims. -/

/-- The identity stream, a convenient concrete random state. -/
def idS : RandS := fun n => n

/-- Two coordinates differ by exactly one unit in exactly one axis. -/
def unit_step (a b : Coord) : Prop :=
  (a.1 = b.1 ∧ (a.2 - b.2).natAbs = 1) ∨ (a.2 = b.2 ∧ (a.1 - b.1).natAbs = 1)

instance decUnitStep (a b : Coord) : Decidable (unit_step a b) := by
  unfold unit_step
  infer_instance

/-- A coordinate lies in the rectangle the source indexes:
[0, len(maze)) x [0, len(maze[0])). -/
def inBounds (maze : Maze) (c : Coord) : Prop :=
  0 ≤ c.1 ∧ c.1 < (maze.length : ℤ) ∧ 0 ≤ c.2 ∧ c.2 < (colCount maze : ℤ)

instance decInBounds (maze : Maze) (c : Coord) : Decidable (inBounds maze c) := by
  unfold inBounds
  infer_instance

/-- The maze is rectangular: every row has the width of the first. -/
def Rect (maze : Maze) : Prop := ∀ row ∈ maze, row.length = colCount maze

instance decRect (maze : Maze) : Decidable (Rect maze) := by
  unfold Rect
  infer_instance

/-- How many cells of the maze hold the given state. -/
def countCell (maze : Maze) (c : Cell) : ℕ :=
  (maze.map (fun row => row.countP (fun v => decide (v = c)))).sum

/-- The claim's notion of a concrete walk: from cur, successive unit steps
through in-range non-wall cells, ending at the goal coordinate (the list
excludes the walk's origin, matching the a_star return convention). -/
def valid_from (maze : Maze) (gl : Coord) : Coord → List Coord → Bool
  | cur, [] => decide (cur = gl)
  | cur, n :: rest =>
    decide (unit_step cur n) && (cellAt maze n).isSome &&
      decide (cellAt maze n ≠ some Cell.wall) && valid_from maze gl n rest

/-- One breadth-first level expansion away from walls and seen cells. -/
def bfs_level (maze : Maze) (seen frontier : List Coord) : List Coord :=
  (frontier.flatMap (fun c =>
    (get_neighbors maze c).filter (fun n =>
      !(decide (cellAt maze n = some Cell.wall)) &&
      !((seen ++ frontier).any (fun v => decide (v = n)))))).dedup

/-- Breadth-first search distance: the claim's reference notion of the true
shortest-path length over non-wall cells with unit step cost. -/
def bfs_search (maze : Maze) (gl : Coord) :
    ℕ → List Coord → List Coord → ℕ → Option ℕ
  | 0, _, _, _ => none
  | fuel + 1, seen, frontier, d =>
    if frontier.isEmpty then none
    else if frontier.any (fun c => decide (c = gl)) then some d
    else bfs_search maze gl fuel (seen ++ frontier) (bfs_level maze seen frontier) (d + 1)

/-- Shortest-path length from the start marker to the goal marker. -/
def bfs_dist (maze : Maze) : Option ℕ :=
  match find_positions maze Cell.start Cell.goal with
  | (some st, some gl) => bfs_search maze gl (cellCount maze + 1) [] [st] 0
  | _ => none

/-! Concrete fixtures used by the counterexamples and witnesses. -/

/-- A 3-by-5 maze with start (2,0), goal (1,4) and a single wall at (1,3):
the shortest path has 5 steps, yet the search returns a 7-step path. -/
def mazeOpt : Maze :=
  [[Cell.o, Cell.o, Cell.o, Cell.o, Cell.o],
   [Cell.o, Cell.o, Cell.o, Cell.wall, Cell.goal],
   [Cell.start, Cell.o, Cell.o, Cell.o, Cell.o]]

/-- A shortest walk of mazeOpt: 5 steps along the bottom row. -/
def pathShort5 : List Coord := [(2, 1), (2, 2), (2, 3), (2, 4), (1, 4)]

/-- A 1-by-1 maze with no marker at all. -/
def mazeNoMarks : Maze := [[Cell.o]]

/-- A 1-by-3 maze whose wall fully separates start from goal. -/
def mazeSplit : Maze := [[Cell.start, Cell.wall, Cell.goal]]

/-- A 3-by-3 all-open maze with start (0,0) and goal (2,2), the concrete
scenario of the specification. -/
def mazeDiag : Maze :=
  [[Cell.start, Cell.o, Cell.o],
   [Cell.o, Cell.o, Cell.o],
   [Cell.o, Cell.o, Cell.goal]]

/-! Proof-side vocabulary: keys of the bookkeeping dicts, frontier entry
counts, the loop variant, and the reachable-state invariant. -/

/-- The keys of an association list (the dict's key set, with multiplicity). -/
def keys {α β : Type} (l : List (α × β)) : List α := l.map Prod.fst

/-- How many frontier entries carry the given coordinate. -/
def entryCount (os : List (ℕ × Coord)) (c : Coord) : ℕ :=
  os.countP (fun e => decide (e.2 = c))

/-- Row-major list of all in-range coordinates of the maze's rectangle. -/
def cellsOf (maze : Maze) : List Coord := cellsList maze.length (colCount maze)

/-- Remaining decrease capacity of one cell: its recorded g_score, or N + 1
when unrecorded. Every recorded score only ever decreases, and a frontier
push is tied to such a decrease, which bounds the loop. -/
def capAt (N : ℕ) (gs : List (Coord × ℕ)) (c : Coord) : ℕ :=
  match getv gs c with
  | none => N + 1
  | some v => v

/-- Total capacity over the maze's rectangle. -/
def capSum (maze0 : Maze) (gs : List (Coord × ℕ)) : ℕ :=
  ((cellsOf maze0).map (capAt (cellCount maze0) gs)).sum

/-- The loop variant: frontier size plus twice the total capacity; it
strictly decreases at every iteration of the search loop. -/
def loopMeasure (maze0 : Maze) (s : SState) : ℕ :=
  s.open_set.length + 2 * capSum maze0 s.g_score

/-- Invariant of every reachable search state of a_star on a maze whose
start marker sits at st: dimensions never change, the frontier holds at most
one entry per coordinate and only recorded coordinates, recorded
coordinates are in range, the start keeps score 0 and no predecessor, the
recorded coordinates are exactly the start plus the predecessor keys,
scores are below the number of recorded coordinates, and every predecessor
edge is a unit step towards a strictly smaller score. -/
structure Inv (maze0 : Maze) (st : Coord) (s : SState) : Prop where
  dims : s.maze.map List.length = maze0.map List.length
  open_nodup : (s.open_set.map Prod.snd).Nodup
  open_gs : ∀ e ∈ s.open_set, e.2 ∈ keys s.g_score
  gs_nodup : (keys s.g_score).Nodup
  cf_nodup : (keys s.came_from).Nodup
  gs_cells : ∀ c ∈ keys s.g_score, inBounds maze0 c
  gs_st : getv s.g_score st = some 0
  cf_st : getv s.came_from st = none
  dom_eq : ∀ c, c ∈ keys s.g_score ↔ (c = st ∨ c ∈ keys s.came_from)
  gs_len : s.g_score.length = s.came_from.length + 1
  val_lt : ∀ c v, getv s.g_score c = some v → v < s.g_score.length
  cf_gs : ∀ n m, getv s.came_from n = some m → unit_step m n ∧
    ∃ vn vm, getv s.g_score n = some vn ∧ getv s.g_score m = some vm ∧ vm < vn

/-- Generation outcome with the stream position made relative to the start
position, for stating that generation depends only on the draws consumed. -/
def relOutcome (p : ℕ) :
    Except GenErr (Maze × Coord × Coord × ℕ) → Except GenErr (Maze × Coord × Coord × ℕ)
  | Except.error e => Except.error e
  | Except.ok (m, st, en, q) => Except.ok (m, st, en, q - p)

/-- The stream shifted to start reading at position d. -/
def shiftS (d : ℕ) : RandS := fun n => idS (d + n)

/-- The grid generate_maze hands to the wall-placement loop: an all-Open
R-by-C grid with the start marker written at (sr, sc) and then the goal
marker at (er, ec). -/
def markedGrid (R C : ℕ) (sr sc er ec : ℤ) : Maze :=
  setCell (setCell (List.replicate R (List.replicate C Cell.o)) (sr, sc) Cell.start)
    (er, ec) Cell.goal

/-! Association-list lemmas: the dict model. -/

theorem getv_setv_self {α β : Type} [DecidableEq α] (l : List (α × β)) (a : α) (b : β) :
    getv (setv l a b) a = some b := by
  induction l with
  | nil => simp [getv, setv]
  | cons h t ih =>
    obtain ⟨k, v⟩ := h
    by_cases hk : k = a
    · subst hk
      simp [getv, setv]
    · simp [getv, setv, hk, ih]

theorem getv_setv_ne {α β : Type} [DecidableEq α] (l : List (α × β)) (a c : α) (b : β)
    (h : c ≠ a) : getv (setv l a b) c = getv l c := by
  have hac : ¬a = c := fun hh => h hh.symm
  induction l with
  | nil => simp [getv, setv, hac]
  | cons hd t ih =>
    obtain ⟨k, v⟩ := hd
    by_cases hk : k = a
    · subst hk
      simp [getv, setv, hac]
    · simp only [setv, if_neg hk, getv]
      by_cases hc : k = c
      · simp [hc]
      · simp [hc, ih]

theorem keys_cons {α β : Type} (k : α) (v : β) (t : List (α × β)) :
    keys ((k, v) :: t) = k :: keys t := rfl

theorem keys_setv_mem {α β : Type} [DecidableEq α] (l : List (α × β)) (a : α) (b : β)
    (h : a ∈ keys l) : keys (setv l a b) = keys l := by
  induction l with
  | nil => simp [keys] at h
  | cons hd t ih =>
    obtain ⟨k, v⟩ := hd
    by_cases hk : k = a
    · subst hk
      simp [keys, setv]
    · have ht : a ∈ keys t := by
        rw [keys_cons] at h
        rcases List.mem_cons.mp h with h1 | h1
        · exact absurd h1.symm hk
        · exact h1
      simp only [setv, if_neg hk, keys_cons, ih ht]

theorem keys_setv_not_mem {α β : Type} [DecidableEq α] (l : List (α × β)) (a : α) (b : β)
    (h : a ∉ keys l) : keys (setv l a b) = keys l ++ [a] := by
  induction l with
  | nil => simp [keys, setv]
  | cons hd t ih =>
    obtain ⟨k, v⟩ := hd
    have hk : k ≠ a := by
      intro hh
      exact h (by simp [keys_cons, hh])
    have ht : a ∉ keys t := by
      intro hh
      exact h (by rw [keys_cons]; exact List.mem_cons_of_mem _ hh)
    simp only [setv, if_neg hk, keys_cons, ih ht, List.cons_append]

theorem keys_length {α β : Type} (l : List (α × β)) : (keys l).length = l.length := by
  simp [keys]

theorem getv_isSome_iff_mem {α β : Type} [DecidableEq α] (l : List (α × β)) (a : α) :
    (getv l a).isSome ↔ a ∈ keys l := by
  induction l with
  | nil => simp [getv, keys]
  | cons hd t ih =>
    obtain ⟨k, v⟩ := hd
    rw [keys_cons]
    by_cases hk : k = a
    · subst hk
      simp [getv]
    · have hak : ¬a = k := fun hh => hk hh.symm
      simp only [getv, if_neg hk, List.mem_cons, hak, false_or]
      exact ih

theorem getv_eq_none_iff {α β : Type} [DecidableEq α] (l : List (α × β)) (a : α) :
    getv l a = none ↔ a ∉ keys l := by
  rw [← getv_isSome_iff_mem]
  cases getv l a <;> simp

theorem mem_keys_of_getv {α β : Type} [DecidableEq α] {l : List (α × β)} {a : α} {b : β}
    (h : getv l a = some b) : a ∈ keys l := by
  rw [← getv_isSome_iff_mem, h]
  rfl

theorem length_setv_mem {α β : Type} [DecidableEq α] (l : List (α × β)) (a : α) (b : β)
    (h : a ∈ keys l) : (setv l a b).length = l.length := by
  have h0 := keys_setv_mem l a b h
  have h1 := keys_length (setv l a b)
  have h2 := keys_length l
  rw [h0] at h1
  omega

theorem length_setv_not_mem {α β : Type} [DecidableEq α] (l : List (α × β)) (a : α) (b : β)
    (h : a ∉ keys l) : (setv l a b).length = l.length + 1 := by
  have h0 := keys_setv_not_mem l a b h
  have h1 := keys_length (setv l a b)
  have h2 := keys_length l
  rw [h0] at h1
  simp at h1
  omega

theorem nodup_keys_setv {α β : Type} [DecidableEq α] (l : List (α × β)) (a : α) (b : β)
    (h : (keys l).Nodup) : (keys (setv l a b)).Nodup := by
  by_cases hm : a ∈ keys l
  · rw [keys_setv_mem l a b hm]
    exact h
  · rw [keys_setv_not_mem l a b hm]
    simp [List.nodup_append, h, List.Disjoint]
    intro x hx hxa
    exact hm (hxa ▸ hx)

/-! Frontier pop lemmas. -/

theorem minEntry_eq_none_iff (l : List (ℕ × Coord)) : minEntry l = none ↔ l = [] := by
  cases l with
  | nil => simp [minEntry]
  | cons e t =>
    simp only [minEntry]
    cases minEntry t <;> simp

theorem minEntry_mem {l : List (ℕ × Coord)} {m : ℕ × Coord} (h : minEntry l = some m) :
    m ∈ l := by
  induction l generalizing m with
  | nil => simp [minEntry] at h
  | cons e t ih =>
    simp only [minEntry] at h
    cases ht : minEntry t with
    | none =>
      rw [ht] at h
      simp at h
      simp [h]
    | some m2 =>
      rw [ht] at h
      simp at h
      by_cases hb : entryLtb m2 e = true
      · simp [hb] at h
        right
        exact ih (h ▸ ht)
      · simp [hb] at h
        simp [h]

theorem removeFirst_sublist {α : Type} [DecidableEq α] (l : List α) (a : α) :
    (removeFirst l a).Sublist l := by
  induction l with
  | nil => simp [removeFirst]
  | cons x t ih =>
    by_cases hx : x = a
    · simp [removeFirst, hx]
    · simpa [removeFirst, hx] using ih.cons₂ x

theorem length_removeFirst {α : Type} [DecidableEq α] {l : List α} {a : α} (h : a ∈ l) :
    (removeFirst l a).length + 1 = l.length := by
  induction l with
  | nil => simp at h
  | cons x t ih =>
    by_cases hx : x = a
    · simp [removeFirst, hx]
    · have ht : a ∈ t := by
        rcases List.mem_cons.mp h with h1 | h1
        · exact absurd h1.symm hx
        · exact h1
      have := ih ht
      simp [removeFirst, hx]
      omega

theorem popMin_eq_none_iff (os : List (ℕ × Coord)) : popMin os = none ↔ os = [] := by
  unfold popMin
  cases h : minEntry os with
  | none => simpa using (minEntry_eq_none_iff os).mp h
  | some m =>
    simp
    intro he
    rw [he] at h
    simp [minEntry] at h

theorem popMin_spec {os : List (ℕ × Coord)} {e : ℕ × Coord} {rest : List (ℕ × Coord)}
    (h : popMin os = some (e, rest)) :
    e ∈ os ∧ rest = removeFirst os e := by
  unfold popMin at h
  cases hm : minEntry os with
  | none => simp [hm] at h
  | some m =>
    rw [hm] at h
    simp at h
    obtain ⟨he, hr⟩ := h
    exact ⟨he ▸ minEntry_mem hm, by rw [← hr, he]⟩

/-! Cell read and write lemmas. -/

theorem set_getElem?_eq {α : Type} (l : List α) (i : ℕ) (v : α) (h : l[i]? = some v) :
    l.set i v = l := by
  apply List.ext_getElem?
  intro n
  rw [List.getElem?_set]
  by_cases hn : i = n
  · subst hn
    have hlt : i < l.length := by
      by_contra hge
      rw [List.getElem?_eq_none (by omega)] at h
      exact Option.noConfusion h
    simp [hlt, h.symm]
  · simp [hn]

theorem map_length_setCell (m : Maze) (p : Coord) (c : Cell) :
    (setCell m p c).map List.length = m.map List.length := by
  unfold setCell
  by_cases hp : 0 ≤ p.1 ∧ 0 ≤ p.2
  · simp only [if_pos hp]
    cases hrow : m[p.1.toNat]? with
    | none => rfl
    | some row =>
      rw [List.map_set]
      apply set_getElem?_eq
      simp [hrow]
  · simp [hp]

theorem length_eq_of_map_length {m1 m2 : Maze}
    (h : m1.map List.length = m2.map List.length) : m1.length = m2.length := by
  have := congrArg List.length h
  simpa using this

theorem colCount_eq_headD (m : Maze) : colCount m = (m.map List.length).headD 0 := by
  cases m with
  | nil => rfl
  | cons r t => rfl

theorem colCount_eq_of_map_length {m1 m2 : Maze}
    (h : m1.map List.length = m2.map List.length) : colCount m1 = colCount m2 := by
  rw [colCount_eq_headD, colCount_eq_headD, h]

theorem cellAt_setCell_ne (m : Maze) (p q : Coord) (c : Cell) (h : q ≠ p) :
    cellAt (setCell m p c) q = cellAt m q := by
  unfold setCell
  by_cases hp : 0 ≤ p.1 ∧ 0 ≤ p.2
  · simp only [if_pos hp]
    cases hrow : m[p.1.toNat]? with
    | none => rfl
    | some row =>
      unfold cellAt
      by_cases hq : 0 ≤ q.1 ∧ 0 ≤ q.2
      · simp only [if_pos hq]
        rw [List.getElem?_set]
        by_cases hi : p.1.toNat = q.1.toNat
        · have hlt : p.1.toNat < m.length := by
            by_contra hge
            rw [List.getElem?_eq_none (by omega)] at hrow
            exact Option.noConfusion hrow
          have hpq1 : p.1 = q.1 := by
            have e1 := Int.toNat_of_nonneg hp.1
            have e2 := Int.toNat_of_nonneg hq.1
            omega
          have hpq2 : ¬p.2.toNat = q.2.toNat := by
            intro hj
            apply h
            have e1 := Int.toNat_of_nonneg hp.2
            have e2 := Int.toNat_of_nonneg hq.2
            have hpq2 : p.2 = q.2 := by omega
            exact Prod.ext hpq1.symm hpq2.symm
          rw [if_pos hi, if_pos hlt, ← hi, hrow]
          simp only [Option.some_bind]
          rw [List.getElem?_set, if_neg hpq2]
        · rw [if_neg hi]
      · simp [hq]
  · simp [hp]

theorem cellAt_setCell_self (m : Maze) (p : Coord) (c : Cell)
    (h : (cellAt m p).isSome) : cellAt (setCell m p c) p = some c := by
  unfold cellAt at h
  by_cases hp : 0 ≤ p.1 ∧ 0 ≤ p.2
  · rw [if_pos hp] at h
    cases hrow : m[p.1.toNat]? with
    | none =>
      rw [hrow] at h
      simp at h
    | some row =>
      rw [hrow] at h
      simp only [Option.some_bind] at h
      have hj : p.2.toNat < row.length := by
        by_contra hge
        rw [List.getElem?_eq_none (by omega)] at h
        simp at h
      have hi : p.1.toNat < m.length := by
        by_contra hge
        rw [List.getElem?_eq_none (by omega)] at hrow
        exact Option.noConfusion hrow
      unfold setCell cellAt
      rw [if_pos hp, hrow]
      simp only [if_pos hp]
      rw [List.getElem?_set, if_pos rfl, if_pos hi]
      simp only [Option.some_bind]
      rw [List.getElem?_set, if_pos rfl, if_pos hj]
  · rw [if_neg hp] at h
    simp at h

theorem cellAt_isSome_of_inBounds {m : Maze} (hr : Rect m) {c : Coord}
    (h : inBounds m c) : (cellAt m c).isSome := by
  obtain ⟨h1, h2, h3, h4⟩ := h
  have hi : c.1.toNat < m.length := by omega
  have hrow : m[c.1.toNat]? = some (m[c.1.toNat]) := List.getElem?_eq_getElem hi
  have hmem : m[c.1.toNat] ∈ m := List.getElem_mem hi
  have hlen : (m[c.1.toNat]).length = colCount m := hr _ hmem
  have hj : c.2.toNat < (m[c.1.toNat]).length := by omega
  unfold cellAt
  rw [if_pos ⟨h1, h3⟩, hrow]
  simp only [Option.some_bind]
  rw [List.getElem?_eq_getElem hj]
  rfl

theorem inBounds_of_cellAt_isSome {m : Maze} {c : Coord} (hr : Rect m)
    (h : (cellAt m c).isSome) : inBounds m c := by
  unfold cellAt at h
  by_cases hp : 0 ≤ c.1 ∧ 0 ≤ c.2
  · rw [if_pos hp] at h
    cases hrow : m[c.1.toNat]? with
    | none =>
      rw [hrow] at h
      simp at h
    | some row =>
      rw [hrow] at h
      simp only [Option.some_bind] at h
      have hi : c.1.toNat < m.length := by
        by_contra hge
        rw [List.getElem?_eq_none (by omega)] at hrow
        exact Option.noConfusion hrow
      have hj : c.2.toNat < row.length := by
        by_contra hge
        rw [List.getElem?_eq_none (by omega)] at h
        simp at h
      have hmem : row ∈ m := by
        have hge := List.getElem?_eq_getElem hi
        rw [hge] at hrow
        exact (Option.some_inj.mp hrow) ▸ List.getElem_mem hi
      have hlen : row.length = colCount m := hr _ hmem
      refine ⟨hp.1, by omega, hp.2, by omega⟩
  · rw [if_neg hp] at h
    simp at h

/-! Neighbour lemmas. -/

theorem mem_get_neighbors {m : Maze} {pos n : Coord} (h : n ∈ get_neighbors m pos) :
    inBounds m n ∧ unit_step pos n := by
  unfold get_neighbors at h
  rw [List.mem_filter] at h
  obtain ⟨hmem, hcond⟩ := h
  refine ⟨of_decide_eq_true hcond, ?_⟩
  simp only [List.mem_cons, List.not_mem_nil, or_false] at hmem
  unfold unit_step
  rcases hmem with rfl | rfl | rfl | rfl
  · right
    constructor
    · rfl
    · omega
  · right
    constructor
    · rfl
    · omega
  · left
    constructor
    · rfl
    · omega
  · left
    constructor
    · rfl
    · omega

theorem get_neighbors_congr {m1 m2 : Maze}
    (h : m1.map List.length = m2.map List.length) :
    get_neighbors m1 = get_neighbors m2 := by
  funext pos
  unfold get_neighbors
  rw [length_eq_of_map_length h, colCount_eq_of_map_length h]

theorem inBounds_congr {m1 m2 : Maze} (h : m1.map List.length = m2.map List.length)
    (c : Coord) : inBounds m1 c ↔ inBounds m2 c := by
  unfold inBounds
  rw [length_eq_of_map_length h, colCount_eq_of_map_length h]

theorem unit_step_ne {a b : Coord} (h : unit_step a b) : a ≠ b := by
  intro he
  subst he
  unfold unit_step at h
  omega

theorem unit_step_symm {a b : Coord} (h : unit_step a b) : unit_step b a := by
  unfold unit_step at h ⊢
  omega

/-! Cell enumeration lemmas. -/

theorem mem_cellsList (x y : ℕ) (c : Coord) :
    c ∈ cellsList x y ↔ 0 ≤ c.1 ∧ c.1 < (x : ℤ) ∧ 0 ≤ c.2 ∧ c.2 < (y : ℤ) := by
  unfold cellsList
  rw [List.mem_flatMap]
  constructor
  · rintro ⟨i, hi, hc⟩
    rw [List.mem_range] at hi
    rw [List.mem_map] at hc
    obtain ⟨j, hj, hcc⟩ := hc
    rw [List.mem_range] at hj
    rw [← hcc]
    refine ⟨?_, ?_, ?_, ?_⟩
    · show (0 : ℤ) ≤ Int.ofNat i
      simp only [Int.ofNat_eq_natCast]
      omega
    · show (Int.ofNat i : ℤ) < (x : ℤ)
      simp only [Int.ofNat_eq_natCast]
      omega
    · show (0 : ℤ) ≤ Int.ofNat j
      simp only [Int.ofNat_eq_natCast]
      omega
    · show (Int.ofNat j : ℤ) < (y : ℤ)
      simp only [Int.ofNat_eq_natCast]
      omega
  · rintro ⟨h1, h2, h3, h4⟩
    refine ⟨c.1.toNat, ?_, ?_⟩
    · rw [List.mem_range]
      omega
    · rw [List.mem_map]
      refine ⟨c.2.toNat, ?_, ?_⟩
      · rw [List.mem_range]
        omega
      · have e1 := Int.toNat_of_nonneg h1
        have e2 := Int.toNat_of_nonneg h3
        exact Prod.ext e1 e2

theorem mem_cellsOf (m : Maze) (c : Coord) : c ∈ cellsOf m ↔ inBounds m c := by
  unfold cellsOf inBounds
  exact mem_cellsList m.length (colCount m) c

theorem nodup_cellsList (x y : ℕ) : (cellsList x y).Nodup := by
  unfold cellsList
  rw [List.nodup_flatMap]
  constructor
  · intro i hi
    refine List.Nodup.map ?_ (List.nodup_range y)
    intro a b hab
    have h2 := congrArg Prod.snd hab
    simp only [Int.ofNat_eq_natCast] at h2
    exact_mod_cast h2
  · have hpw : (List.range x).Pairwise (fun a b => a ≠ b) :=
      (List.pairwise_lt_range x).imp (fun h => Nat.ne_of_lt h)
    refine hpw.imp ?_
    intro a b hab
    intro z hza hzb
    rw [List.mem_map] at hza hzb
    obtain ⟨ja, _, hja⟩ := hza
    obtain ⟨jb, _, hjb⟩ := hzb
    apply hab
    have h1 := congrArg Prod.fst hja
    have h2 := congrArg Prod.fst hjb
    simp only at h1 h2
    have h3 : Int.ofNat a = Int.ofNat b := by rw [h1, ← h2]
    simp only [Int.ofNat_eq_natCast] at h3
    exact_mod_cast h3

theorem nodup_cellsOf (m : Maze) : (cellsOf m).Nodup := nodup_cellsList _ _

theorem length_cellsOf (m : Maze) : (cellsOf m).length = cellCount m := by
  unfold cellsOf cellsList cellCount
  rw [List.length_flatMap]
  have hfun : (List.length ∘ fun i => (List.range (colCount m)).map
      (fun j => (Int.ofNat i, Int.ofNat j))) = Function.const ℕ (colCount m) := by
    funext i
    simp [Function.const]
  rw [hfun, List.map_const, List.length_range, List.sum_replicate, smul_eq_mul]

theorem cellsList_length (x y : ℕ) : (cellsList x y).length = x * y := by
  unfold cellsList
  rw [List.length_flatMap]
  have hfun : (List.length ∘ fun i => (List.range y).map
      (fun j => (Int.ofNat i, Int.ofNat j))) = Function.const ℕ y := by
    funext i
    simp [Function.const]
  rw [hfun, List.map_const, List.length_range, List.sum_replicate, smul_eq_mul]

theorem place_walls_window (s1 s2 : RandS) (cs : List Coord) :
    ∀ (m : Maze) (q1 q2 : ℕ),
      (∀ k, k < cs.length → s1 (q1 + k) = s2 (q2 + k)) →
      ∃ mF, place_walls s1 cs m q1 = Except.ok (mF, q1 + cs.length) ∧
            place_walls s2 cs m q2 = Except.ok (mF, q2 + cs.length) := by
  induction cs with
  | nil =>
    intro m q1 q2 _
    exact ⟨m, by simp [place_walls], by simp [place_walls]⟩
  | cons c rest ih =>
    intro m q1 q2 hw
    have h0 : s1 q1 = s2 q2 := by
      have := hw 0 (by simp)
      simpa using this
    have hr1 : randint s1 q1 0 100 =
        Except.ok (0 + ((s1 q1 : ℤ)) % (100 - 0 + 1), q1 + 1) := by
      unfold randint
      rw [if_neg (by omega)]
    have hr2 : randint s2 q2 0 100 =
        Except.ok (0 + ((s1 q1 : ℤ)) % (100 - 0 + 1), q2 + 1) := by
      unfold randint
      rw [if_neg (by omega), h0]
    have hw' : ∀ k, k < rest.length → s1 (q1 + 1 + k) = s2 (q2 + 1 + k) := by
      intro k hk
      have hkk := hw (k + 1) (by simp only [List.length_cons]; omega)
      have e1 : q1 + 1 + k = q1 + (k + 1) := by omega
      have e2 : q2 + 1 + k = q2 + (k + 1) := by omega
      rw [e1, e2]
      exact hkk
    obtain ⟨mF, h1, h2⟩ := ih
      (if decide ((0 + ((s1 q1 : ℤ)) % (100 - 0 + 1)) < 35) &&
          is_valid_wall_location m c then setCell m c Cell.wall else m)
      (q1 + 1) (q2 + 1) hw'
    have heq1 : q1 + 1 + rest.length = q1 + (c :: rest).length := by
      simp only [List.length_cons]
      omega
    have heq2 : q2 + 1 + rest.length = q2 + (c :: rest).length := by
      simp only [List.length_cons]
      omega
    refine ⟨mF, ?_, ?_⟩
    · simp only [place_walls, hr1]
      rw [h1, heq1]
    · simp only [place_walls, hr2]
      rw [h2, heq2]

/-! Capacity-sum lemmas for the loop variant. -/

theorem sum_map_exchange {α : Type} (l : List α) (f g : α → ℕ) (a : α)
    (hl : l.Nodup) (ha : a ∈ l) (hfg : ∀ x ∈ l, x ≠ a → f x = g x) :
    (l.map f).sum + g a = (l.map g).sum + f a := by
  induction l with
  | nil => cases ha
  | cons x t ih =>
    rcases List.mem_cons.mp ha with he | hat
    · subst he
      have hmap : t.map f = t.map g := by
        apply List.map_congr_left
        intro z hz
        exact hfg z (List.mem_cons_of_mem _ hz)
          (fun hza => (List.nodup_cons.mp hl).1 (hza ▸ hz))
      simp only [List.map_cons, List.sum_cons, hmap]
      omega
    · have hxa : x ≠ a := by
        intro he
        exact (List.nodup_cons.mp hl).1 (he ▸ hat)
      have hx := hfg x (List.mem_cons_self x t) hxa
      have ht := ih (List.nodup_cons.mp hl).2 hat
        (fun z hz hza => hfg z (List.mem_cons_of_mem _ hz) hza)
      simp only [List.map_cons, List.sum_cons, hx]
      omega

theorem capSum_setv (m0 : Maze) (gs : List (Coord × ℕ)) (n : Coord) (v : ℕ)
    (hb : inBounds m0 n) :
    capSum m0 (setv gs n v) + capAt (cellCount m0) gs n = capSum m0 gs + v := by
  have hn : n ∈ cellsOf m0 := (mem_cellsOf _ _).mpr hb
  have hself : capAt (cellCount m0) (setv gs n v) n = v := by
    unfold capAt
    rw [getv_setv_self]
  have hmain := sum_map_exchange (cellsOf m0) (capAt (cellCount m0) (setv gs n v))
    (capAt (cellCount m0) gs) n (nodup_cellsOf m0) hn
    (fun x _ hxn => by
      unfold capAt
      rw [getv_setv_ne gs n x v hxn])
  unfold capSum
  omega

theorem keys_length_le_cellCount (m0 : Maze) (gs : List (Coord × ℕ))
    (hnd : (keys gs).Nodup) (hsub : ∀ c ∈ keys gs, inBounds m0 c) :
    gs.length ≤ cellCount m0 := by
  have h1 : (keys gs).length = gs.length := keys_length gs
  have h2 : (keys gs).toFinset.card = (keys gs).length :=
    List.toFinset_card_of_nodup hnd
  have hsub2 : (keys gs).toFinset ⊆ (cellsOf m0).toFinset := by
    intro c hc
    rw [List.mem_toFinset] at hc ⊢
    exact (mem_cellsOf m0 c).mpr (hsub c hc)
  have h3 := Finset.card_le_card hsub2
  have h4 := List.toFinset_card_le (cellsOf m0)
  have h5 := length_cellsOf m0
  omega

/-! Soundness of find_positions: a reported coordinate holds its marker. -/

theorem fp_inner_sound (A B : Cell) (i : ℕ) (l : List (ℕ × Cell))
    (acc : Option Coord × Option Coord) :
    (∀ st, (l.foldl (fun acc2 cell =>
        if cell.2 = A then (some ((i : ℤ), (cell.1 : ℤ)), acc2.2)
        else if cell.2 = B then (acc2.1, some ((i : ℤ), (cell.1 : ℤ)))
        else acc2) acc).1 = some st →
      acc.1 = some st ∨ ∃ j, (j, A) ∈ l ∧ st = ((i : ℤ), (j : ℤ))) ∧
    (∀ gl, (l.foldl (fun acc2 cell =>
        if cell.2 = A then (some ((i : ℤ), (cell.1 : ℤ)), acc2.2)
        else if cell.2 = B then (acc2.1, some ((i : ℤ), (cell.1 : ℤ)))
        else acc2) acc).2 = some gl →
      acc.2 = some gl ∨ ∃ j, (j, B) ∈ l ∧ gl = ((i : ℤ), (j : ℤ))) := by
  induction l generalizing acc with
  | nil => exact ⟨fun st h => Or.inl h, fun gl h => Or.inl h⟩
  | cons cell t ih =>
    simp only [List.foldl_cons]
    constructor
    · intro st hst
      rcases (ih _).1 st hst with h1 | h1
      · by_cases hA : cell.2 = A
        · rw [if_pos hA] at h1
          simp only at h1
          right
          exact ⟨cell.1, by simp [← hA], Option.some_inj.mp h1.symm⟩
        · rw [if_neg hA] at h1
          by_cases hB : cell.2 = B
          · rw [if_pos hB] at h1
            exact Or.inl h1
          · rw [if_neg hB] at h1
            exact Or.inl h1
      · obtain ⟨j, hj, he⟩ := h1
        exact Or.inr ⟨j, List.mem_cons_of_mem _ hj, he⟩
    · intro gl hgl
      rcases (ih _).2 gl hgl with h1 | h1
      · by_cases hA : cell.2 = A
        · rw [if_pos hA] at h1
          exact Or.inl h1
        · rw [if_neg hA] at h1
          by_cases hB : cell.2 = B
          · rw [if_pos hB] at h1
            simp only at h1
            right
            exact ⟨cell.1, by simp [← hB], Option.some_inj.mp h1.symm⟩
          · rw [if_neg hB] at h1
            exact Or.inl h1
      · obtain ⟨j, hj, he⟩ := h1
        exact Or.inr ⟨j, List.mem_cons_of_mem _ hj, he⟩

theorem fp_outer_sound (A B : Cell) (rows : List (ℕ × List Cell))
    (acc : Option Coord × Option Coord) :
    (∀ st, (rows.foldl (fun acc row => row.2.enum.foldl (fun acc2 cell =>
        if cell.2 = A then (some ((row.1 : ℤ), (cell.1 : ℤ)), acc2.2)
        else if cell.2 = B then (acc2.1, some ((row.1 : ℤ), (cell.1 : ℤ)))
        else acc2) acc) acc).1 = some st →
      acc.1 = some st ∨
        ∃ i r j, (i, r) ∈ rows ∧ (j, A) ∈ r.enum ∧ st = ((i : ℤ), (j : ℤ))) ∧
    (∀ gl, (rows.foldl (fun acc row => row.2.enum.foldl (fun acc2 cell =>
        if cell.2 = A then (some ((row.1 : ℤ), (cell.1 : ℤ)), acc2.2)
        else if cell.2 = B then (acc2.1, some ((row.1 : ℤ), (cell.1 : ℤ)))
        else acc2) acc) acc).2 = some gl →
      acc.2 = some gl ∨
        ∃ i r j, (i, r) ∈ rows ∧ (j, B) ∈ r.enum ∧ gl = ((i : ℤ), (j : ℤ))) := by
  induction rows generalizing acc with
  | nil => exact ⟨fun st h => Or.inl h, fun gl h => Or.inl h⟩
  | cons row t ih =>
    simp only [List.foldl_cons]
    constructor
    · intro st hst
      rcases (ih _).1 st hst with h1 | h1
      · rcases (fp_inner_sound A B row.1 row.2.enum acc).1 st h1 with h2 | h2
        · exact Or.inl h2
        · obtain ⟨j, hj, he⟩ := h2
          exact Or.inr ⟨row.1, row.2, j, by simp, hj, he⟩
      · obtain ⟨i, r, j, hr, hj, he⟩ := h1
        exact Or.inr ⟨i, r, j, List.mem_cons_of_mem _ hr, hj, he⟩
    · intro gl hgl
      rcases (ih _).2 gl hgl with h1 | h1
      · rcases (fp_inner_sound A B row.1 row.2.enum acc).2 gl h1 with h2 | h2
        · exact Or.inl h2
        · obtain ⟨j, hj, he⟩ := h2
          exact Or.inr ⟨row.1, row.2, j, by simp, hj, he⟩
      · obtain ⟨i, r, j, hr, hj, he⟩ := h1
        exact Or.inr ⟨i, r, j, List.mem_cons_of_mem _ hr, hj, he⟩

theorem cellAt_of_enum_mem {maze : Maze} {i j : ℕ} {r : List Cell} {c : Cell}
    (hr : (i, r) ∈ maze.enum) (hc : (j, c) ∈ r.enum) :
    cellAt maze ((i : ℤ), (j : ℤ)) = some c := by
  rw [List.mk_mem_enum_iff_getElem?] at hr hc
  unfold cellAt
  have h1 : (0 : ℤ) ≤ (i : ℤ) := by omega
  have h2 : (0 : ℤ) ≤ (j : ℤ) := by omega
  rw [if_pos ⟨h1, h2⟩]
  simp only [Int.toNat_natCast]
  rw [hr, Option.some_bind, hc]

theorem find_positions_fst_sound {maze : Maze} {A B : Cell} {st : Coord}
    (h : (find_positions maze A B).1 = some st) : cellAt maze st = some A := by
  unfold find_positions at h
  rcases (fp_outer_sound A B maze.enum (none, none)).1 st h with h1 | h1
  · exact Option.noConfusion h1
  · obtain ⟨i, r, j, hr, hj, he⟩ := h1
    rw [he]
    exact cellAt_of_enum_mem hr hj

theorem find_positions_snd_sound {maze : Maze} {A B : Cell} {gl : Coord}
    (h : (find_positions maze A B).2 = some gl) : cellAt maze gl = some B := by
  unfold find_positions at h
  rcases (fp_outer_sound A B maze.enum (none, none)).2 gl h with h1 | h1
  · exact Option.noConfusion h1
  · obtain ⟨i, r, j, hr, hj, he⟩ := h1
    rw [he]
    exact cellAt_of_enum_mem hr hj

/-! Preservation of the reachable-state invariant. -/

theorem mem_keys_setv_self {α β : Type} [DecidableEq α] (l : List (α × β)) (a : α)
    (b : β) : a ∈ keys (setv l a b) := by
  rw [← getv_isSome_iff_mem, getv_setv_self]
  rfl

theorem mem_keys_setv_ne {α β : Type} [DecidableEq α] (l : List (α × β)) (a c : α)
    (b : β) (h : c ≠ a) : c ∈ keys (setv l a b) ↔ c ∈ keys l := by
  rw [← getv_isSome_iff_mem, ← getv_isSome_iff_mem, getv_setv_ne l a c b h]

theorem inv_relax (maze0 : Maze) (st gl current n : Coord) (s : SState)
    (hInv : Inv maze0 st s) (gCur : ℕ)
    (hgcur : getv s.g_score current = some gCur)
    (hstep : unit_step current n) (hnb : inBounds maze0 n)
    (himp : ∀ g, getv s.g_score n = some g → gCur + 1 < g) :
    Inv maze0 st
      { s with
        came_from := setv s.came_from n current
        g_score := setv s.g_score n (gCur + 1)
        f_score := setv s.f_score n (gCur + 1 + heuristic n gl)
        open_set :=
          if s.open_set.any (fun e => decide (e.2 = n)) then s.open_set
          else s.open_set ++ [(gCur + 1 + heuristic n gl, n)] } ∧
    keys s.g_score ⊆ keys (setv s.g_score n (gCur + 1)) ∧
    loopMeasure maze0
      { s with
        came_from := setv s.came_from n current
        g_score := setv s.g_score n (gCur + 1)
        f_score := setv s.f_score n (gCur + 1 + heuristic n gl)
        open_set :=
          if s.open_set.any (fun e => decide (e.2 = n)) then s.open_set
          else s.open_set ++ [(gCur + 1 + heuristic n gl, n)] } + 1 ≤
      loopMeasure maze0 s := by
  have hnst : n ≠ st := by
    intro he
    have h0 := himp 0 (he ▸ hInv.gs_st)
    omega
  have hncur : current ≠ n := unit_step_ne hstep
  have hcurmem : current ∈ keys s.g_score := mem_keys_of_getv hgcur
  have hgcur_lt : gCur < s.g_score.length := hInv.val_lt current gCur hgcur
  have hgs_le : s.g_score.length ≤ cellCount maze0 :=
    keys_length_le_cellCount maze0 s.g_score hInv.gs_nodup hInv.gs_cells
  have hsub : keys s.g_score ⊆ keys (setv s.g_score n (gCur + 1)) := by
    intro c hc
    by_cases hcn : c = n
    · exact hcn ▸ mem_keys_setv_self _ _ _
    · exact (mem_keys_setv_ne _ _ _ _ hcn).mpr hc
  have hmemv : ∀ c, c ≠ n → (c ∈ keys (setv s.g_score n (gCur + 1)) ↔ c ∈ keys s.g_score) :=
    fun c hc => mem_keys_setv_ne _ _ _ _ hc
  have hmemcf : ∀ c, c ≠ n → (c ∈ keys (setv s.came_from n current) ↔ c ∈ keys s.came_from) :=
    fun c hc => mem_keys_setv_ne _ _ _ _ hc
  have hncf : n ∈ keys s.g_score ↔ n ∈ keys s.came_from := by
    rcases hInv.dom_eq n with ⟨h1, h2⟩
    constructor
    · intro h
      rcases h1 h with he | he
      · exact absurd he hnst
      · exact he
    · intro h
      exact h2 (Or.inr h)
  constructor
  · refine ⟨?_, ?_, ?_, ?_, ?_, ?_, ?_, ?_, ?_, ?_, ?_, ?_⟩
    · exact hInv.dims
    · by_cases hany : s.open_set.any (fun e => decide (e.2 = n)) = true
      · simp only [if_pos hany]
        exact hInv.open_nodup
      · simp only [if_neg hany]
        rw [List.map_append, List.nodup_append]
        refine ⟨hInv.open_nodup, by simp, ?_⟩
        intro z hz
        simp only [List.map_cons, List.map_nil, List.mem_cons, List.not_mem_nil,
          or_false]
        intro he
        rw [Bool.not_eq_true, List.any_eq_false] at hany
        rw [List.mem_map] at hz
        obtain ⟨e, hemem, hesnd⟩ := hz
        exact hany e hemem (by simp [hesnd, he])
    · intro e he
      by_cases hany : s.open_set.any (fun e => decide (e.2 = n)) = true
      · rw [if_pos hany] at he
        exact hsub (hInv.open_gs e he)
      · rw [if_neg (by simpa using hany)] at he
        rcases List.mem_append.mp he with he1 | he1
        · exact hsub (hInv.open_gs e he1)
        · simp only [List.mem_cons, List.not_mem_nil, or_false] at he1
          rw [he1]
          exact mem_keys_setv_self _ _ _
    · exact nodup_keys_setv _ _ _ hInv.gs_nodup
    · exact nodup_keys_setv _ _ _ hInv.cf_nodup
    · intro c hc
      by_cases hcn : c = n
      · exact hcn ▸ hnb
      · exact hInv.gs_cells c ((hmemv c hcn).mp hc)
    · rw [getv_setv_ne _ _ _ _ (fun he => hnst he.symm)]
      exact hInv.gs_st
    · rw [getv_setv_ne _ _ _ _ (fun he => hnst he.symm)]
      exact hInv.cf_st
    · intro c
      by_cases hcn : c = n
      · subst hcn
        constructor
        · intro _
          exact Or.inr (mem_keys_setv_self _ _ _)
        · intro _
          exact mem_keys_setv_self _ _ _
      · rw [hmemv c hcn, hmemcf c hcn]
        exact hInv.dom_eq c
    · by_cases hmem : n ∈ keys s.g_score
      · rw [length_setv_mem _ _ _ hmem, length_setv_mem _ _ _ (hncf.mp hmem)]
        exact hInv.gs_len
      · rw [length_setv_not_mem _ _ _ hmem,
          length_setv_not_mem _ _ _ (fun hc => hmem (hncf.mpr hc))]
        have := hInv.gs_len
        omega
    · intro c v hc
      by_cases hcn : c = n
      · rw [hcn, getv_setv_self] at hc
        have hv : v = gCur + 1 := Option.some_inj.mp hc.symm
        subst hv
        by_cases hmem : n ∈ keys s.g_score
        · rw [length_setv_mem _ _ _ hmem]
          obtain ⟨gOld, hgOld⟩ := Option.isSome_iff_exists.mp
            ((getv_isSome_iff_mem _ _).mpr hmem)
          have h1 := himp gOld hgOld
          have h2 := hInv.val_lt n gOld hgOld
          omega
        · rw [length_setv_not_mem _ _ _ hmem]
          omega
      · rw [getv_setv_ne _ _ _ _ hcn] at hc
        have h1 := hInv.val_lt c v hc
        by_cases hmem : n ∈ keys s.g_score
        · rw [length_setv_mem _ _ _ hmem]
          exact h1
        · rw [length_setv_not_mem _ _ _ hmem]
          omega
    · intro n1 m1 hc
      by_cases hn1 : n1 = n
      · rw [hn1, getv_setv_self] at hc
        have hm1 : m1 = current := Option.some_inj.mp hc.symm
        rw [hn1, hm1]
        refine ⟨hstep, gCur + 1, gCur, getv_setv_self _ _ _, ?_, by omega⟩
        rw [getv_setv_ne _ _ _ _ hncur]
        exact hgcur
      · rw [getv_setv_ne _ _ _ _ hn1] at hc
        obtain ⟨hst1, vn1, vm1, hvn1, hvm1, hlt1⟩ := hInv.cf_gs n1 m1 hc
        by_cases hm1n : m1 = n
        · have h2 := himp vm1 (hm1n ▸ hvm1)
          refine ⟨hst1, vn1, gCur + 1, ?_, ?_, by omega⟩
          · rw [getv_setv_ne _ _ _ _ hn1]
            exact hvn1
          · rw [hm1n, getv_setv_self]
        · refine ⟨hst1, vn1, vm1, ?_, ?_, hlt1⟩
          · rw [getv_setv_ne _ _ _ _ hn1]
            exact hvn1
          · rw [getv_setv_ne _ _ _ _ hm1n]
            exact hvm1
  · refine ⟨hsub, ?_⟩
    have hcap := capSum_setv maze0 s.g_score n (gCur + 1) hnb
    have hdrop : gCur + 1 + 1 ≤ capAt (cellCount maze0) s.g_score n := by
      cases hgn : getv s.g_score n with
      | none =>
        have he : capAt (cellCount maze0) s.g_score n = cellCount maze0 + 1 := by
          unfold capAt
          rw [hgn]
        rw [he]
        omega
      | some gOld =>
        have he : capAt (cellCount maze0) s.g_score n = gOld := by
          unfold capAt
          rw [hgn]
        have h2 := himp gOld hgn
        rw [he]
        omega
    unfold loopMeasure
    by_cases hany : s.open_set.any (fun e => decide (e.2 = n)) = true
    · simp only [if_pos hany]
      omega
    · simp only [if_neg hany, List.length_append, List.length_cons, List.length_nil]
      omega

theorem inv_mark (maze0 : Maze) (st n : Coord) (s1 : SState) (hInv1 : Inv maze0 st s1) :
    Inv maze0 st
      (if cellAt s1.maze n = some Cell.start ∨ cellAt s1.maze n = some Cell.goal
        then s1 else { s1 with maze := setCell s1.maze n Cell.checked }) ∧
    (if cellAt s1.maze n = some Cell.start ∨ cellAt s1.maze n = some Cell.goal
      then s1 else { s1 with maze := setCell s1.maze n Cell.checked }).g_score =
      s1.g_score ∧
    loopMeasure maze0
      (if cellAt s1.maze n = some Cell.start ∨ cellAt s1.maze n = some Cell.goal
        then s1 else { s1 with maze := setCell s1.maze n Cell.checked }) =
      loopMeasure maze0 s1 := by
  by_cases hc : cellAt s1.maze n = some Cell.start ∨ cellAt s1.maze n = some Cell.goal
  · rw [if_pos hc]
    exact ⟨hInv1, rfl, rfl⟩
  · rw [if_neg hc]
    refine ⟨⟨?_, hInv1.open_nodup, hInv1.open_gs, hInv1.gs_nodup, hInv1.cf_nodup,
      hInv1.gs_cells, hInv1.gs_st, hInv1.cf_st, hInv1.dom_eq, hInv1.gs_len,
      hInv1.val_lt, hInv1.cf_gs⟩, rfl, rfl⟩
    exact (map_length_setCell _ _ _).trans hInv1.dims

theorem inv_visit (maze0 : Maze) (st gl current n : Coord) (s : SState)
    (hInv : Inv maze0 st s)
    (hcur : current ∈ keys s.g_score)
    (hstep : unit_step current n)
    (hnb : inBounds maze0 n) :
    Inv maze0 st (visit_neighbor gl current s n) ∧
    keys s.g_score ⊆ keys (visit_neighbor gl current s n).g_score ∧
    loopMeasure maze0 (visit_neighbor gl current s n) ≤ loopMeasure maze0 s := by
  obtain ⟨gCur, hgcur⟩ := Option.isSome_iff_exists.mp
    ((getv_isSome_iff_mem _ _).mpr hcur)
  unfold visit_neighbor
  by_cases hwall : cellAt s.maze n = some Cell.wall
  · rw [if_pos hwall]
    exact ⟨hInv, fun x hx => hx, le_refl _⟩
  · rw [if_neg hwall]
    simp only [hgcur, Option.getD_some]
    cases hgn : getv s.g_score n with
    | none =>
      simp only [hgn, if_pos]
      have himp : ∀ g, getv s.g_score n = some g → gCur + 1 < g := by
        intro g hg
        rw [hgn] at hg
        exact Option.noConfusion hg
      obtain ⟨hI, hS, hM⟩ := inv_relax maze0 st gl current n s hInv gCur hgcur hstep hnb himp
      obtain ⟨hI2, hG2, hM2⟩ := inv_mark maze0 st n _ hI
      refine ⟨hI2, ?_, ?_⟩
      · rw [hG2]
        exact hS
      · rw [hM2]
        omega
    | some gOld =>
      simp only [hgn]
      by_cases himp2 : gCur + 1 < gOld
      · rw [if_pos (decide_eq_true himp2)]
        have himp : ∀ g, getv s.g_score n = some g → gCur + 1 < g := by
          intro g hg
          rw [hgn] at hg
          rw [← Option.some_inj.mp hg]
          exact himp2
        obtain ⟨hI, hS, hM⟩ := inv_relax maze0 st gl current n s hInv gCur hgcur hstep hnb himp
        obtain ⟨hI2, hG2, hM2⟩ := inv_mark maze0 st n _ hI
        refine ⟨hI2, ?_, ?_⟩
        · rw [hG2]
          exact hS
        · rw [hM2]
          omega
      · simp only [decide_eq_false himp2]
        rw [if_neg Bool.false_ne_true]
        obtain ⟨hI2, hG2, hM2⟩ := inv_mark maze0 st n s hInv
        refine ⟨hI2, ?_, ?_⟩
        · rw [hG2]
          exact fun x hx => hx
        · rw [hM2]

theorem inv_fold (maze0 : Maze) (st gl current : Coord) :
    ∀ (ns : List Coord) (s1 : SState), Inv maze0 st s1 →
    current ∈ keys s1.g_score →
    (∀ n ∈ ns, unit_step current n ∧ inBounds maze0 n) →
    Inv maze0 st (ns.foldl (visit_neighbor gl current) s1) ∧
    loopMeasure maze0 (ns.foldl (visit_neighbor gl current) s1) ≤
      loopMeasure maze0 s1 := by
  intro ns
  induction ns with
  | nil =>
    intro s1 h1 _ _
    exact ⟨h1, le_refl _⟩
  | cons n t ih =>
    intro s1 h1 h2 h3
    simp only [List.foldl_cons]
    obtain ⟨hI, hS, hM⟩ := inv_visit maze0 st gl current n s1 h1 h2
      (h3 n (List.mem_cons_self n t)).1 (h3 n (List.mem_cons_self n t)).2
    obtain ⟨hI2, hM2⟩ := ih (visit_neighbor gl current s1 n) hI (hS h2)
      (fun m hm => h3 m (List.mem_cons_of_mem _ hm))
    exact ⟨hI2, le_trans hM2 hM⟩

theorem inv_expand (maze0 : Maze) (st gl : Coord) (s : SState) (pr : ℕ)
    (current : Coord) (rest : List (ℕ × Coord))
    (hInv : Inv maze0 st s)
    (hpop : popMin s.open_set = some ((pr, current), rest)) :
    Inv maze0 st (expand gl current s rest) ∧
    loopMeasure maze0 (expand gl current s rest) < loopMeasure maze0 s := by
  obtain ⟨hmem, hrest⟩ := popMin_spec hpop
  have hcur : current ∈ keys s.g_score := hInv.open_gs (pr, current) hmem
  have hsub : rest.Sublist s.open_set := by
    rw [hrest]
    exact removeFirst_sublist s.open_set (pr, current)
  have hlen : rest.length + 1 = s.open_set.length := by
    rw [hrest]
    exact length_removeFirst hmem
  have hInv1 : Inv maze0 st { s with open_set := rest } :=
    ⟨hInv.dims, (hsub.map Prod.snd).nodup hInv.open_nodup,
      fun e he => hInv.open_gs e (hsub.subset he), hInv.gs_nodup, hInv.cf_nodup,
      hInv.gs_cells, hInv.gs_st, hInv.cf_st, hInv.dom_eq, hInv.gs_len,
      hInv.val_lt, hInv.cf_gs⟩
  have hn : ∀ n ∈ get_neighbors s.maze current, unit_step current n ∧ inBounds maze0 n := by
    intro n hnn
    obtain ⟨hb, hu⟩ := mem_get_neighbors hnn
    exact ⟨hu, (inBounds_congr hInv.dims n).mp hb⟩
  obtain ⟨hI, hM⟩ := inv_fold maze0 st gl current (get_neighbors s.maze current)
    { s with open_set := rest } hInv1 hcur hn
  refine ⟨hI, ?_⟩
  have hm1 : loopMeasure maze0 { s with open_set := rest } + 1 = loopMeasure maze0 s := by
    unfold loopMeasure
    simp only
    omega
  unfold expand
  omega

theorem inv_advance (maze0 : Maze) (st gl : Coord) (s : SState)
    (hInv : Inv maze0 st s) : Inv maze0 st (advance gl s) := by
  unfold advance
  cases hpop : popMin s.open_set with
  | none => exact hInv
  | some er =>
    obtain ⟨⟨pr, current⟩, rest⟩ := er
    show Inv maze0 st (if current = gl then s else expand gl current s rest)
    by_cases hgl : current = gl
    · rw [if_pos hgl]
      exact hInv
    · rw [if_neg hgl]
      exact (inv_expand maze0 st gl s pr current rest hInv hpop).1

theorem inv_init (maze : Maze) (hR : Rect maze) (st gl : Coord)
    (hst : cellAt maze st = some Cell.start) : Inv maze st (init_state maze st gl) := by
  have hb : inBounds maze st :=
    inBounds_of_cellAt_isSome hR (by rw [hst]; rfl)
  refine ⟨rfl, by simp [init_state], ?_, by simp [init_state, keys],
    by simp [init_state, keys], ?_, ?_, rfl, ?_, rfl, ?_, ?_⟩
  · intro e he
    simp only [init_state, List.mem_cons, List.not_mem_nil, or_false] at he
    rw [he]
    simp [init_state, keys]
  · intro c hc
    simp only [init_state, keys, List.map_cons, List.map_nil, List.mem_cons,
      List.not_mem_nil, or_false] at hc
    rw [hc]
    exact hb
  · simp [init_state, getv]
  · intro c
    simp [init_state, keys, getv]
  · intro c v hc
    simp only [init_state] at hc
    unfold getv at hc
    by_cases hcs : st = c
    · rw [if_pos hcs] at hc
      have : v = 0 := Option.some_inj.mp hc.symm
      simp [init_state, this]
    · rw [if_neg hcs] at hc
      exact Option.noConfusion hc
  · intro n m hc
    simp only [init_state] at hc
    exact Option.noConfusion hc

theorem loop_no_fuelOut (maze0 : Maze) (st gl : Coord) :
    ∀ (fuel : ℕ) (s : SState), Inv maze0 st s → loopMeasure maze0 s < fuel →
    loop gl fuel s ≠ RunRes.fuelOut := by
  intro fuel
  induction fuel with
  | zero =>
    intro s _ hm
    exact absurd hm (by omega)
  | succ fuel ih =>
    intro s hInv hm
    unfold loop
    cases hpop : popMin s.open_set with
    | none => exact fun h => RunRes.noConfusion h
    | some er =>
      obtain ⟨⟨pr, current⟩, rest⟩ := er
      show (if current = gl then
          RunRes.found ((reconstruct (s.came_from.length + 1) s.came_from current).reverse)
        else loop gl fuel (expand gl current s rest)) ≠ RunRes.fuelOut
      by_cases hgl : current = gl
      · rw [if_pos hgl]
        exact fun h => RunRes.noConfusion h
      · rw [if_neg hgl]
        obtain ⟨hI, hM⟩ := inv_expand maze0 st gl s pr current rest hInv hpop
        exact ih (expand gl current s rest) hI (by omega)

theorem loopMeasure_init_lt (maze : Maze) (st gl : Coord) :
    loopMeasure maze (init_state maze st gl) < fuelBound maze := by
  have hbound : ∀ x ∈ (cellsOf maze).map (capAt (cellCount maze) [(st, 0)]),
      x ≤ cellCount maze + 1 := by
    intro x hx
    rw [List.mem_map] at hx
    obtain ⟨c, _, hc⟩ := hx
    rw [← hc]
    cases hg : getv [(st, 0)] c with
    | none =>
      have he : capAt (cellCount maze) [(st, 0)] c = cellCount maze + 1 := by
        unfold capAt
        rw [hg]
      rw [he]
    | some v =>
      have he : capAt (cellCount maze) [(st, 0)] c = v := by
        unfold capAt
        rw [hg]
      have hv : v = 0 := by
        unfold getv at hg
        by_cases hsc : st = c
        · rw [if_pos hsc] at hg
          exact (Option.some_inj.mp hg).symm
        · rw [if_neg hsc] at hg
          exact Option.noConfusion hg
      rw [he]
      omega
  have hsum := List.sum_le_card_nsmul _ _ hbound
  rw [List.length_map, length_cellsOf, smul_eq_mul] at hsum
  have hgoal : loopMeasure maze (init_state maze st gl) =
      1 + 2 * ((cellsOf maze).map (capAt (cellCount maze) [(st, 0)])).sum := by
    unfold loopMeasure capSum init_state
    simp
  rw [hgoal]
  unfold fuelBound
  have h2 : 2 * cellCount maze * (cellCount maze + 1) =
      2 * (cellCount maze * (cellCount maze + 1)) := by ring
  rw [h2]
  omega

theorem inv_stateAfter (maze : Maze) (hR : Rect maze) (st gl : Coord)
    (hfp : find_positions maze Cell.start Cell.goal = (some st, some gl)) (k : ℕ) :
    Inv maze st ((advance gl)^[k] (init_state maze st gl)) := by
  induction k with
  | zero =>
    exact inv_init maze hR st gl (find_positions_fst_sound (by rw [hfp]))
  | succ k ih =>
    rw [Function.iterate_succ_apply']
    exact inv_advance maze st gl _ ih

/-! The reconstructed path: walking came_from from the goal reaches the start
through unit steps, because scores strictly decrease along predecessors. -/

theorem reconstruct_spec (maze0 : Maze) (st : Coord) (s : SState)
    (hInv : Inv maze0 st s) :
    ∀ (fuel : ℕ) (cur : Coord) (v : ℕ), getv s.g_score cur = some v → v < fuel →
    (cur = st → reconstruct fuel s.came_from cur = []) ∧
    (cur ≠ st →
      reconstruct fuel s.came_from cur ≠ [] ∧
      List.Chain' unit_step (st :: (reconstruct fuel s.came_from cur).reverse) ∧
      (reconstruct fuel s.came_from cur).reverse.getLast? = some cur ∧
      st ∉ reconstruct fuel s.came_from cur) := by
  intro fuel
  induction fuel with
  | zero =>
    intro cur v _ hlt
    exact absurd hlt (by omega)
  | succ fuel ih =>
    intro cur v hv hlt
    cases hcf : getv s.came_from cur with
    | none =>
      have hcur_st : cur = st := by
        have hmem : cur ∈ keys s.g_score := mem_keys_of_getv hv
        rcases (hInv.dom_eq cur).mp hmem with h | h
        · exact h
        · exact absurd h ((getv_eq_none_iff _ _).mp hcf)
      have hnil : reconstruct (fuel + 1) s.came_from cur = [] := by
        unfold reconstruct
        rw [hcf]
      exact ⟨fun _ => hnil, fun hne => absurd hcur_st hne⟩
    | some prev =>
      have hcur_ne : cur ≠ st := by
        intro he
        rw [he, hInv.cf_st] at hcf
        exact Option.noConfusion hcf
      obtain ⟨hstep, vn, vm, hvn, hvm, hlt2⟩ := hInv.cf_gs cur prev hcf
      have hvv : vn = v := by
        rw [hv] at hvn
        exact (Option.some_inj.mp hvn).symm
      have hvm_lt : vm < fuel := by omega
      have hrec : reconstruct (fuel + 1) s.came_from cur =
          cur :: reconstruct fuel s.came_from prev := by
        conv_lhs => rw [reconstruct]
        rw [hcf]
      refine ⟨fun he => absurd he hcur_ne, fun _ => ?_⟩
      by_cases hprev : prev = st
      · have hnil := (ih prev vm hvm hvm_lt).1 hprev
        rw [hrec, hnil]
        refine ⟨by simp, ?_, by simp, ?_⟩
        · simp only [List.reverse_cons, List.reverse_nil, List.nil_append]
          exact List.chain'_pair.mpr (hprev ▸ hstep)
        · simp only [List.mem_cons, List.not_mem_nil, or_false]
          exact fun he => hcur_ne he.symm
      · obtain ⟨hne2, hchain2, hlast2, hnotin2⟩ := (ih prev vm hvm hvm_lt).2 hprev
        rw [hrec]
        refine ⟨by simp, ?_, ?_, ?_⟩
        · rw [List.reverse_cons, ← List.cons_append]
          apply List.Chain'.append hchain2 (List.chain'_singleton cur)
          intro x hx y hy
          simp only [List.head?_cons, Option.mem_def, Option.some_inj] at hy
          have hx2 : x = prev := by
            cases hrev : (reconstruct fuel s.came_from prev).reverse with
            | nil =>
              exact absurd (List.reverse_eq_nil_iff.mp hrev) hne2
            | cons z t =>
              rw [hrev, List.getLast?_cons_cons] at hx
              rw [hrev] at hlast2
              rw [Option.mem_def, hlast2] at hx
              exact (Option.some_inj.mp hx).symm
          rw [hx2, ← hy]
          exact hstep
        · rw [List.reverse_cons, List.getLast?_concat]
        · intro hmem
          rcases List.mem_cons.mp hmem with he | he
          · exact hcur_ne he.symm
          · exact hnotin2 he

theorem loop_found (maze0 : Maze) (st gl : Coord) (hne : st ≠ gl) :
    ∀ (fuel : ℕ) (s : SState) (p : List Coord), Inv maze0 st s →
    loop gl fuel s = RunRes.found p →
    p ≠ [] ∧ List.Chain' unit_step (st :: p) ∧ p.getLast? = some gl ∧ st ∉ p := by
  intro fuel
  induction fuel with
  | zero =>
    intro s p _ h
    exact RunRes.noConfusion h
  | succ fuel ih =>
    intro s p hInv h
    unfold loop at h
    cases hpop : popMin s.open_set with
    | none =>
      rw [hpop] at h
      exact RunRes.noConfusion h
    | some er =>
      obtain ⟨⟨pr, current⟩, rest⟩ := er
      rw [hpop] at h
      have h2 : (if current = gl then
          RunRes.found ((reconstruct (s.came_from.length + 1) s.came_from current).reverse)
        else loop gl fuel (expand gl current s rest)) = RunRes.found p := h
      by_cases hgl : current = gl
      · rw [if_pos hgl] at h2
        have hp : (reconstruct (s.came_from.length + 1) s.came_from current).reverse = p := by
          injection h2
        obtain ⟨hmem, _⟩ := popMin_spec hpop
        have hcur : current ∈ keys s.g_score := hInv.open_gs (pr, current) hmem
        obtain ⟨v, hval⟩ := Option.isSome_iff_exists.mp
          ((getv_isSome_iff_mem _ _).mpr hcur)
        have hvlt : v < s.came_from.length + 1 := by
          have h3 := hInv.val_lt current v hval
          have h4 := hInv.gs_len
          omega
        have hcur_ne : current ≠ st := fun he => hne (he ▸ hgl)
        obtain ⟨hne2, hchain2, hlast2, hnotin2⟩ :=
          (reconstruct_spec maze0 st s hInv (s.came_from.length + 1) current v hval hvlt).2
            hcur_ne
        refine ⟨?_, ?_, ?_, ?_⟩
        · rw [← hp]
          simp only [ne_eq, List.reverse_eq_nil_iff]
          exact hne2
        · rw [← hp]
          exact hchain2
        · rw [← hp, hlast2, hgl]
        · rw [← hp, List.mem_reverse]
          exact hnotin2
      · rw [if_neg hgl] at h2
        exact ih (expand gl current s rest) p
          (inv_expand maze0 st gl s pr current rest hInv hpop).1 h2

theorem a_star_eq (maze : Maze) (st gl : Coord)
    (hfp : find_positions maze Cell.start Cell.goal = (some st, some gl)) :
    a_star maze = match loop gl (fuelBound maze) (init_state maze st gl) with
      | RunRes.found q => some q
      | _ => none := by
  unfold a_star a_starRun
  rw [hfp]

/-! Claim theorems. -/

/-! Wall-placement safety: is_valid_wall_location protects marker cells and
their orthogonal neighbours, and place_walls only ever writes walls at
locations that pass that check against the current grid. -/

theorem setCell_of_cellAt_none (m : Maze) (p : Coord) (c : Cell)
    (h : cellAt m p = none) : setCell m p c = m := by
  unfold cellAt at h
  unfold setCell
  by_cases hp : 0 ≤ p.1 ∧ 0 ≤ p.2
  · rw [if_pos hp] at h ⊢
    rcases hrow : m[p.1.toNat]? with _ | row
    · simp only [hrow]
    · simp only [hrow]
      rw [hrow] at h
      simp only [Option.some_bind] at h
      have hlen : row.length ≤ p.2.toNat := List.getElem?_eq_none_iff.mp h
      rw [List.set_eq_of_length_le hlen]
      exact set_getElem?_eq m p.1.toNat row hrow
  · rw [if_neg hp]

theorem any_marker_true {ns : List (Option Cell)} {v : Option Cell} (hv : v ∈ ns)
    (hm : v = some Cell.start ∨ v = some Cell.goal) :
    (ns.any (fun w => decide (w = some Cell.start)) ||
      ns.any (fun w => decide (w = some Cell.goal))) = true := by
  rw [Bool.or_eq_true, List.any_eq_true, List.any_eq_true]
  rcases hm with h | h
  · exact Or.inl ⟨v, hv, by simp [h]⟩
  · exact Or.inr ⟨v, hv, by simp [h]⟩

theorem is_valid_false_near_marker (m : Maze) (t c : Coord)
    (hmark : cellAt m t = some Cell.start ∨ cellAt m t = some Cell.goal)
    (hb : inBounds m t) (hct : c = t ∨ unit_step c t) :
    is_valid_wall_location m c = false := by
  unfold is_valid_wall_location
  rcases hct with he | hstep
  · subst he
    rw [if_pos hmark]
  · by_cases hcm : cellAt m c = some Cell.start ∨ cellAt m c = some Cell.goal
    · rw [if_pos hcm]
    · rw [if_neg hcm]
      simp only [Bool.not_eq_false']
      obtain ⟨hb1, hb2, hb3, hb4⟩ := hb
      unfold unit_step at hstep
      rcases hstep with ⟨he1, he2⟩ | ⟨he1, he2⟩
      · have h2 : t.2 = c.2 - 1 ∨ t.2 = c.2 + 1 := by omega
        rcases h2 with h2 | h2
        · have hg : 0 < c.2 := by omega
          have hco : ((c.1 : ℤ), c.2 - 1) = t := by
            have hh2 : c.2 - 1 = t.2 := by omega
            rw [he1, hh2]
          refine any_marker_true
            (v := if 0 < c.2 then cellAt m (c.1, c.2 - 1) else none) ?_ ?_
          · simp
          · rw [if_pos hg, hco]
            exact hmark
        · have hg : c.2 < (colCount m : ℤ) - 1 := by omega
          have hco : ((c.1 : ℤ), c.2 + 1) = t := by
            have hh2 : c.2 + 1 = t.2 := by omega
            rw [he1, hh2]
          refine any_marker_true
            (v := if c.2 < (colCount m : ℤ) - 1 then cellAt m (c.1, c.2 + 1)
              else none) ?_ ?_
          · simp
          · rw [if_pos hg, hco]
            exact hmark
      · have h1 : t.1 = c.1 - 1 ∨ t.1 = c.1 + 1 := by omega
        rcases h1 with h1 | h1
        · have hg : 0 < c.1 := by omega
          have hco : ((c.1 : ℤ) - 1, c.2) = t := by
            have hh1 : c.1 - 1 = t.1 := by omega
            rw [hh1, he1]
          refine any_marker_true
            (v := if 0 < c.1 then cellAt m (c.1 - 1, c.2) else none) ?_ ?_
          · simp
          · rw [if_pos hg, hco]
            exact hmark
        · have hg : c.1 < (m.length : ℤ) - 1 := by omega
          have hco : ((c.1 : ℤ) + 1, c.2) = t := by
            have hh1 : c.1 + 1 = t.1 := by omega
            rw [hh1, he1]
          refine any_marker_true
            (v := if c.1 < (m.length : ℤ) - 1 then cellAt m (c.1 + 1, c.2)
              else none) ?_ ?_
          · simp
          · rw [if_pos hg, hco]
            exact hmark

theorem cellAt_replicate (R C : ℕ) (c : Coord) (v : Cell)
    (h : cellAt (List.replicate R (List.replicate C Cell.o)) c = some v) :
    v = Cell.o := by
  unfold cellAt at h
  by_cases hp : 0 ≤ c.1 ∧ 0 ≤ c.2
  · rw [if_pos hp, List.getElem?_replicate] at h
    by_cases h1 : c.1.toNat < R
    · rw [if_pos h1] at h
      simp only [Option.some_bind, List.getElem?_replicate] at h
      by_cases h2 : c.2.toNat < C
      · rw [if_pos h2] at h
        injection h with h'
        exact h'.symm
      · rw [if_neg h2] at h
        exact Option.noConfusion h
    · rw [if_neg h1] at h
      simp only [Option.none_bind] at h
      exact Option.noConfusion h
  · rw [if_neg hp] at h
    exact Option.noConfusion h

theorem cellAt_replicate_some (R C : ℕ) (c : Coord)
    (h1 : 0 ≤ c.1) (h2 : c.1 < (R : ℤ)) (h3 : 0 ≤ c.2) (h4 : c.2 < (C : ℤ)) :
    cellAt (List.replicate R (List.replicate C Cell.o)) c = some Cell.o := by
  unfold cellAt
  rw [if_pos ⟨h1, h3⟩, List.getElem?_replicate,
    if_pos (show c.1.toNat < R by omega)]
  simp only [Option.some_bind]
  rw [List.getElem?_replicate, if_pos (show c.2.toNat < C by omega)]

theorem randint_ok_exists (s : RandS) (p : ℕ) (a b : ℤ) (h : a ≤ b) :
    ∃ v, randint s p a b = Except.ok (v, p + 1) ∧ a ≤ v ∧ v ≤ b := by
  have hm1 : 0 ≤ (s p : ℤ) % (b - a + 1) := Int.emod_nonneg _ (by omega)
  have hm2 : (s p : ℤ) % (b - a + 1) < b - a + 1 := Int.emod_lt_of_pos _ (by omega)
  refine ⟨a + ((s p : ℤ)) % (b - a + 1), ?_, by omega, by omega⟩
  unfold randint
  rw [if_neg (by omega)]

theorem fdiv3_bounds (x : ℤ) (hx : 1 ≤ x) :
    0 ≤ Int.fdiv x 3 ∧ Int.fdiv x 3 ≤ x - 1 ∧
    0 ≤ Int.fdiv (2 * x) 3 ∧ Int.fdiv (2 * x) 3 ≤ x - 1 := by
  have e1 : Int.fdiv x 3 = x / 3 := Int.fdiv_eq_ediv _ (by omega)
  have e2 : Int.fdiv (2 * x) 3 = 2 * x / 3 := Int.fdiv_eq_ediv _ (by omega)
  have d1 := Int.ediv_add_emod x 3
  have m1a := Int.emod_nonneg x (by omega : (3 : ℤ) ≠ 0)
  have m1b := Int.emod_lt_of_pos x (by omega : (0 : ℤ) < 3)
  have d2 := Int.ediv_add_emod (2 * x) 3
  have m2a := Int.emod_nonneg (2 * x) (by omega : (3 : ℤ) ≠ 0)
  have m2b := Int.emod_lt_of_pos (2 * x) (by omega : (0 : ℤ) < 3)
  omega

theorem maze2_inv (R C : ℕ) (sr sc er ec : ℤ)
    (hs1 : 0 ≤ sr) (hs2 : sr < (R : ℤ)) (hs3 : 0 ≤ sc) (hs4 : sc < (C : ℤ))
    (he1 : 0 ≤ er) (he2 : er < (R : ℤ)) (he3 : 0 ≤ ec) (he4 : ec < (C : ℤ)) :
    inBounds (markedGrid R C sr sc er ec) (sr, sc) ∧
    inBounds (markedGrid R C sr sc er ec) (er, ec) ∧
    (cellAt (markedGrid R C sr sc er ec) (sr, sc) = some Cell.start ∨
      cellAt (markedGrid R C sr sc er ec) (sr, sc) = some Cell.goal) ∧
    cellAt (markedGrid R C sr sc er ec) (er, ec) = some Cell.goal ∧
    (∀ c, cellAt (markedGrid R C sr sc er ec) c ≠ some Cell.wall) ∧
    (∀ c v, cellAt (markedGrid R C sr sc er ec) c = some v →
      v = Cell.o ∨ v = Cell.wall ∨ v = Cell.start ∨ v = Cell.goal) := by
  have hM0s : cellAt (List.replicate R (List.replicate C Cell.o)) (sr, sc) =
      some Cell.o := cellAt_replicate_some R C (sr, sc) hs1 hs2 hs3 hs4
  have hM0e : cellAt (List.replicate R (List.replicate C Cell.o)) (er, ec) =
      some Cell.o := cellAt_replicate_some R C (er, ec) he1 he2 he3 he4
  have hXs : cellAt (setCell (List.replicate R (List.replicate C Cell.o))
      (sr, sc) Cell.start) (sr, sc) = some Cell.start :=
    cellAt_setCell_self _ _ _ (by simp [hM0s])
  have hXe : (cellAt (setCell (List.replicate R (List.replicate C Cell.o))
      (sr, sc) Cell.start) (er, ec)).isSome := by
    by_cases hse : ((er : ℤ), (ec : ℤ)) = ((sr : ℤ), (sc : ℤ))
    · simp [hse, hXs]
    · rw [cellAt_setCell_ne _ _ _ _ hse]
      simp [hM0e]
  have hM2e : cellAt (markedGrid R C sr sc er ec) (er, ec) = some Cell.goal := by
    unfold markedGrid
    exact cellAt_setCell_self _ _ _ hXe
  have hM2s : cellAt (markedGrid R C sr sc er ec) (sr, sc) = some Cell.start ∨
      cellAt (markedGrid R C sr sc er ec) (sr, sc) = some Cell.goal := by
    by_cases hse : ((er : ℤ), (ec : ℤ)) = ((sr : ℤ), (sc : ℤ))
    · right
      rw [← hse]
      exact hM2e
    · left
      unfold markedGrid
      rw [cellAt_setCell_ne _ _ _ _ (fun hh => hse hh.symm)]
      exact hXs
  have hmap2 : (markedGrid R C sr sc er ec).map List.length =
      (List.replicate R (List.replicate C Cell.o)).map List.length := by
    unfold markedGrid
    rw [map_length_setCell, map_length_setCell]
  have hlen2 : (markedGrid R C sr sc er ec).length = R := by
    rw [length_eq_of_map_length hmap2, List.length_replicate]
  have hcol0 : colCount (List.replicate R (List.replicate C Cell.o)) = C := by
    obtain ⟨n, rfl⟩ : ∃ n, R = n + 1 := ⟨R - 1, by omega⟩
    simp [colCount, List.replicate_succ]
  have hcol2 : colCount (markedGrid R C sr sc er ec) = C := by
    rw [colCount_eq_of_map_length hmap2, hcol0]
  have hbs : inBounds (markedGrid R C sr sc er ec) (sr, sc) := by
    unfold inBounds
    refine ⟨hs1, ?_, hs3, ?_⟩
    · rw [hlen2]
      exact hs2
    · rw [hcol2]
      exact hs4
  have hbe : inBounds (markedGrid R C sr sc er ec) (er, ec) := by
    unfold inBounds
    refine ⟨he1, ?_, he3, ?_⟩
    · rw [hlen2]
      exact he2
    · rw [hcol2]
      exact he4
  have hnw : ∀ c, cellAt (markedGrid R C sr sc er ec) c ≠ some Cell.wall := by
    intro c hcon
    by_cases hce : c = ((er : ℤ), (ec : ℤ))
    · rw [hce, hM2e] at hcon
      exact absurd hcon (by decide)
    · unfold markedGrid at hcon
      rw [cellAt_setCell_ne _ _ _ _ hce] at hcon
      by_cases hcs : c = ((sr : ℤ), (sc : ℤ))
      · rw [hcs, hXs] at hcon
        exact absurd hcon (by decide)
      · rw [cellAt_setCell_ne _ _ _ _ hcs] at hcon
        exact absurd (cellAt_replicate R C c Cell.wall hcon) (by decide)
  have huv : ∀ c v, cellAt (markedGrid R C sr sc er ec) c = some v →
      v = Cell.o ∨ v = Cell.wall ∨ v = Cell.start ∨ v = Cell.goal := by
    intro c v hcv
    by_cases hce : c = ((er : ℤ), (ec : ℤ))
    · rw [hce, hM2e] at hcv
      injection hcv with h'
      exact Or.inr (Or.inr (Or.inr h'.symm))
    · unfold markedGrid at hcv
      rw [cellAt_setCell_ne _ _ _ _ hce] at hcv
      by_cases hcs : c = ((sr : ℤ), (sc : ℤ))
      · rw [hcs, hXs] at hcv
        injection hcv with h'
        exact Or.inr (Or.inr (Or.inl h'.symm))
      · rw [cellAt_setCell_ne _ _ _ _ hcs] at hcv
        exact Or.inl (cellAt_replicate R C c v hcv)
  exact ⟨hbs, hbe, hM2s, hM2e, hnw, huv⟩

theorem place_walls_preserve (s : RandS) (st en : Coord) (cs : List Coord) :
    ∀ (m : Maze) (q : ℕ) (mF : Maze) (qF : ℕ),
      place_walls s cs m q = Except.ok (mF, qF) →
      inBounds m st → inBounds m en →
      (cellAt m st = some Cell.start ∨ cellAt m st = some Cell.goal) →
      cellAt m en = some Cell.goal →
      (∀ c, (unit_step c st ∨ unit_step c en) → cellAt m c ≠ some Cell.wall) →
      (∀ c v, cellAt m c = some v →
        v = Cell.o ∨ v = Cell.wall ∨ v = Cell.start ∨ v = Cell.goal) →
      (cellAt mF st = some Cell.start ∨ cellAt mF st = some Cell.goal) ∧
      cellAt mF en = some Cell.goal ∧
      (∀ c, (unit_step c st ∨ unit_step c en) → cellAt mF c ≠ some Cell.wall) ∧
      (∀ c v, cellAt mF c = some v →
        v = Cell.o ∨ v = Cell.wall ∨ v = Cell.start ∨ v = Cell.goal) := by
  induction cs with
  | nil =>
    intro m q mF qF h hbs hbe hms hme hadj huniv
    simp only [place_walls] at h
    rw [Except.ok.injEq, Prod.mk.injEq] at h
    obtain ⟨h1, -⟩ := h
    subst h1
    exact ⟨hms, hme, hadj, huniv⟩
  | cons c rest ih =>
    intro m q mF qF h hbs hbe hms hme hadj huniv
    have hr : randint s q 0 100 =
        Except.ok (0 + ((s q : ℤ)) % (100 - 0 + 1), q + 1) := by
      unfold randint
      rw [if_neg (by omega)]
    simp only [place_walls, hr] at h
    by_cases hv : (decide ((0 + ((s q : ℤ)) % (100 - 0 + 1)) < 35) &&
        is_valid_wall_location m c) = true
    · rw [if_pos hv] at h
      have hval : is_valid_wall_location m c = true := by
        rw [Bool.and_eq_true] at hv
        exact hv.2
      have hcst : c ≠ st := by
        intro he
        have hf := is_valid_false_near_marker m st c hms hbs (Or.inl he)
        rw [hval] at hf
        exact absurd hf (by decide)
      have hcen : c ≠ en := by
        intro he
        have hf := is_valid_false_near_marker m en c (Or.inr hme) hbe (Or.inl he)
        rw [hval] at hf
        exact absurd hf (by decide)
      have hmap := map_length_setCell m c Cell.wall
      have hbs1 : inBounds (setCell m c Cell.wall) st :=
        (inBounds_congr hmap st).mpr hbs
      have hbe1 : inBounds (setCell m c Cell.wall) en :=
        (inBounds_congr hmap en).mpr hbe
      have hms1 : cellAt (setCell m c Cell.wall) st = some Cell.start ∨
          cellAt (setCell m c Cell.wall) st = some Cell.goal := by
        rw [cellAt_setCell_ne m c st Cell.wall (Ne.symm hcst)]
        exact hms
      have hme1 : cellAt (setCell m c Cell.wall) en = some Cell.goal := by
        rw [cellAt_setCell_ne m c en Cell.wall (Ne.symm hcen)]
        exact hme
      have hadj1 : ∀ n, (unit_step n st ∨ unit_step n en) →
          cellAt (setCell m c Cell.wall) n ≠ some Cell.wall := by
        intro n hn
        by_cases hcc : n = c
        · rw [hcc] at hn
          have hf : is_valid_wall_location m c = false := by
            rcases hn with hs | hs
            · exact is_valid_false_near_marker m st c hms hbs (Or.inr hs)
            · exact is_valid_false_near_marker m en c (Or.inr hme) hbe (Or.inr hs)
          rw [hval] at hf
          exact absurd hf (by decide)
        · rw [cellAt_setCell_ne m c n Cell.wall hcc]
          exact hadj n hn
      have huniv1 : ∀ n v, cellAt (setCell m c Cell.wall) n = some v →
          v = Cell.o ∨ v = Cell.wall ∨ v = Cell.start ∨ v = Cell.goal := by
        intro n v hcv
        by_cases hcc : n = c
        · rw [hcc] at hcv
          cases hmc : cellAt m c with
          | none =>
            rw [setCell_of_cellAt_none m c Cell.wall hmc, hmc] at hcv
            exact Option.noConfusion hcv
          | some u =>
            have hself := cellAt_setCell_self m c Cell.wall (by simp [hmc])
            rw [hself] at hcv
            injection hcv with h'
            exact Or.inr (Or.inl h'.symm)
        · rw [cellAt_setCell_ne m c n Cell.wall hcc] at hcv
          exact huniv n v hcv
      exact ih _ (q + 1) mF qF h hbs1 hbe1 hms1 hme1 hadj1 huniv1
    · rw [if_neg hv] at h
      exact ih m (q + 1) mF qF h hbs hbe hms hme hadj huniv

theorem mark_fields (s1 : SState) (n : Coord) :
    (if cellAt s1.maze n = some Cell.start ∨ cellAt s1.maze n = some Cell.goal
      then s1 else { s1 with maze := setCell s1.maze n Cell.checked }).came_from
      = s1.came_from ∧
    (if cellAt s1.maze n = some Cell.start ∨ cellAt s1.maze n = some Cell.goal
      then s1 else { s1 with maze := setCell s1.maze n Cell.checked }).g_score
      = s1.g_score ∧
    (if cellAt s1.maze n = some Cell.start ∨ cellAt s1.maze n = some Cell.goal
      then s1 else { s1 with maze := setCell s1.maze n Cell.checked }).f_score
      = s1.f_score ∧
    (if cellAt s1.maze n = some Cell.start ∨ cellAt s1.maze n = some Cell.goal
      then s1 else { s1 with maze := setCell s1.maze n Cell.checked }).open_set
      = s1.open_set := by
  by_cases h : cellAt s1.maze n = some Cell.start ∨ cellAt s1.maze n = some Cell.goal
  · rw [if_pos h]
    exact ⟨rfl, rfl, rfl, rfl⟩
  · rw [if_neg h]
    exact ⟨rfl, rfl, rfl, rfl⟩

/-- C10: the a_star search loop terminates on every finite rectangular maze:
a coordinate is pushed onto the frontier only when absent from it and only
when its recorded score strictly decreases, scores are non-negative naturals,
so the loop performs finitely many iterations; with the fuel a_star passes,
the fuel-out marker is never reached and the search returns a path or the
absence value. -/
theorem c10_a_star_terminates (maze : Maze) (hR : Rect maze) :
    a_starRun maze ≠ RunRes.fuelOut := by
  unfold a_starRun
  cases hfp : find_positions maze Cell.start Cell.goal with
  | mk o1 o2 =>
    cases o1 with
    | none =>
      cases o2 with
      | none => exact fun h => RunRes.noConfusion h
      | some gl => exact fun h => RunRes.noConfusion h
    | some st =>
      cases o2 with
      | none => exact fun h => RunRes.noConfusion h
      | some gl =>
        have hst : cellAt maze st = some Cell.start :=
          find_positions_fst_sound (by rw [hfp])
        show loop gl (fuelBound maze) (init_state maze st gl) ≠ RunRes.fuelOut
        exact loop_no_fuelOut maze st gl (fuelBound maze) _
          (inv_init maze hR st gl hst) (loopMeasure_init_lt maze st gl)

theorem c10_a_star_terminates_witness :
    Rect mazeDiag ∧ a_starRun mazeDiag ≠ RunRes.fuelOut :=
  ⟨by decide, c10_a_star_terminates mazeDiag (by decide)⟩

/-- C9: get_neighbors returns only coordinates inside
[0, len(maze)) x [0, len(maze[0])); on a rectangular maze every such
coordinate is a safe access; and every coordinate the search loop holds in
its frontier - hence every coordinate it reads the maze at - is in range. -/
theorem c9_accesses_in_bounds :
    (∀ (maze : Maze) (pos n : Coord), n ∈ get_neighbors maze pos → inBounds maze n) ∧
    (∀ (maze : Maze) (c : Coord), Rect maze → inBounds maze c →
      (cellAt maze c).isSome) ∧
    (∀ (maze : Maze) (k : ℕ) (s : SState), Rect maze → stateAfter maze k = some s →
      ∀ e ∈ s.open_set, inBounds maze e.2) := by
  refine ⟨fun maze pos n h => (mem_get_neighbors h).1,
    fun maze c hR hb => cellAt_isSome_of_inBounds hR hb, ?_⟩
  intro maze k s hR hsa e he
  unfold stateAfter at hsa
  cases hfp : find_positions maze Cell.start Cell.goal with
  | mk o1 o2 =>
    rw [hfp] at hsa
    cases o1 with
    | none =>
      cases o2 with
      | none => exact Option.noConfusion hsa
      | some gl => exact Option.noConfusion hsa
    | some st =>
      cases o2 with
      | none => exact Option.noConfusion hsa
      | some gl =>
        have hs : ((advance gl)^[k] (init_state maze st gl)) = s := by
          have h2 : some ((advance gl)^[k] (init_state maze st gl)) = some s := hsa
          exact Option.some_inj.mp h2
        have hInv := inv_stateAfter maze hR st gl hfp k
        rw [hs] at hInv
        exact hInv.gs_cells e.2 (hInv.open_gs e he)

theorem c9_accesses_in_bounds_witness :
    inBounds mazeDiag ((1 : ℤ), (0 : ℤ)) ∧
    (cellAt mazeDiag ((2 : ℤ), (2 : ℤ))).isSome = true ∧
    inBounds mazeDiag ((0 : ℤ), (0 : ℤ)) :=
  ⟨c9_accesses_in_bounds.1 mazeDiag (0, 0) (1, 0) (by decide),
   c9_accesses_in_bounds.2.1 mazeDiag (2, 2) (by decide) (by decide),
   c9_accesses_in_bounds.2.2 mazeDiag 0 (init_state mazeDiag (0, 0) (2, 2))
     (by decide) (by decide) (0, (0, 0)) (by decide)⟩

/-- C4: on a rectangular grid with unique Start and Goal cells, every path
a_star returns is nonempty, excludes the start coordinate, ends at the goal
coordinate, begins orthogonally adjacent to the start, and every consecutive
pair of coordinates differs by exactly one unit in exactly one axis. -/
theorem c4_path_shape (maze : Maze) (st gl : Coord) (p : List Coord)
    (hR : Rect maze)
    (hstart1 : countCell maze Cell.start = 1)
    (hgoal1 : countCell maze Cell.goal = 1)
    (hfp : find_positions maze Cell.start Cell.goal = (some st, some gl))
    (hp : a_star maze = some p) :
    p ≠ [] ∧ List.Chain' unit_step (st :: p) ∧ p.getLast? = some gl ∧ st ∉ p := by
  have hst : cellAt maze st = some Cell.start :=
    find_positions_fst_sound (by rw [hfp])
  have hglc : cellAt maze gl = some Cell.goal :=
    find_positions_snd_sound (by rw [hfp])
  have hne : st ≠ gl := by
    intro he
    rw [he, hglc] at hst
    exact Cell.noConfusion (Option.some_inj.mp hst)
  rw [a_star_eq maze st gl hfp] at hp
  cases hrun : loop gl (fuelBound maze) (init_state maze st gl) with
  | found q =>
    rw [hrun] at hp
    have hqp : some q = some p := hp
    rw [← Option.some_inj.mp hqp]
    exact loop_found maze st gl hne (fuelBound maze) (init_state maze st gl) q
      (inv_init maze hR st gl hst) hrun
  | nopath =>
    rw [hrun] at hp
    exact Option.noConfusion hp
  | fuelOut =>
    rw [hrun] at hp
    exact Option.noConfusion hp

/-- C1: the claim is the code's own documented intent (a_star's docstring
promises the shortest path) and it fails: on mazeOpt the true shortest-path
length between start (2,0) and goal (1,4) is 5 - breadth-first search
computes 5 and the explicit 5-step walk pathShort5 is valid - yet a_star
returns a 7-step path. The relaxation that skips re-inserting an
already-frontier neighbor leaves its stale priority in the heap, so the
goal is reached through the longer route. -/
theorem c1_suboptimal_path :
    a_star mazeOpt =
      some [((1 : ℤ), (0 : ℤ)), (1, 1), (1, 2), (0, 2), (0, 3), (0, 4), (1, 4)] ∧
    (a_star mazeOpt).map List.length = some 7 ∧
    bfs_dist mazeOpt = some 5 ∧
    valid_from mazeOpt (1, 4) (2, 0) pathShort5 = true ∧
    pathShort5.length = 5 := by
  decide

/-- C2 counterexample: at the fifth iteration of the loop on mazeOpt the
popped node is (2,1) with priority 5; its in-range non-wall neighbor (2,2)
has recorded score 4 and tentative score 2, so the code updates came_from,
g_score and f_score - but the neighbor already has the (stale, priority 7)
frontier entry, so no entry is inserted: the frontier still holds exactly
one entry for (2,2), the old one, and none with the new priority 5. This
refutes the claimed unconditional (re)insertion. -/
theorem c2_skipped_reinsert_cex :
    ∃ s : SState, stateAfter mazeOpt 4 = some s ∧
      (popMin s.open_set).map Prod.fst = some (5, ((2 : ℤ), (1 : ℤ))) ∧
      ((2 : ℤ), (1 : ℤ)) ≠ ((1 : ℤ), (4 : ℤ)) ∧
      ((2 : ℤ), (2 : ℤ)) ∈ get_neighbors s.maze ((2 : ℤ), (1 : ℤ)) ∧
      cellAt s.maze ((2 : ℤ), (2 : ℤ)) ≠ some Cell.wall ∧
      getv s.g_score ((2 : ℤ), (1 : ℤ)) = some 1 ∧
      getv s.g_score ((2 : ℤ), (2 : ℤ)) = some 4 ∧
      1 + 1 < 4 ∧
      getv (advance ((1 : ℤ), (4 : ℤ)) s).g_score ((2 : ℤ), (2 : ℤ)) = some 2 ∧
      getv (advance ((1 : ℤ), (4 : ℤ)) s).came_from ((2 : ℤ), (2 : ℤ)) =
        some ((2 : ℤ), (1 : ℤ)) ∧
      getv (advance ((1 : ℤ), (4 : ℤ)) s).f_score ((2 : ℤ), (2 : ℤ)) = some 5 ∧
      entryCount s.open_set ((2 : ℤ), (2 : ℤ)) = 1 ∧
      entryCount (advance ((1 : ℤ), (4 : ℤ)) s).open_set ((2 : ℤ), (2 : ℤ)) = 1 ∧
      ((5, ((2 : ℤ), (2 : ℤ))) : ℕ × Coord) ∉
        (advance ((1 : ℤ), (4 : ℤ)) s).open_set ∧
      ((7, ((2 : ℤ), (2 : ℤ))) : ℕ × Coord) ∈
        (advance ((1 : ℤ), (4 : ℤ)) s).open_set := by
  refine ⟨(advance ((1 : ℤ), (4 : ℤ)))^[4]
    (init_state mazeOpt ((2 : ℤ), (0 : ℤ)) ((1 : ℤ), (4 : ℤ))), ?_⟩
  decide

/-- C3: the claim matches a_star's docstring (a ValueError for missing
markers) and the code does something else: a marker-less maze yields the
very same None that the genuine no-path outcome yields on a maze whose wall
separates the markers - the precondition violation and the ordinary
no-path result are conflated into one value. -/
theorem c3_missing_markers_conflated :
    a_star mazeNoMarks = none ∧
    find_positions mazeNoMarks Cell.start Cell.goal = (none, none) ∧
    a_star mazeSplit = none ∧
    find_positions mazeSplit Cell.start Cell.goal = (some (0, 0), some (0, 2)) ∧
    bfs_dist mazeSplit = none := by
  decide

set_option maxHeartbeats 1000000 in
set_option synthInstance.maxHeartbeats 1000000 in
/-- C8 counterexample: generation draws from the global random stream, so
calling it twice with identical parameters does not reproduce the grid: on
the identity stream, the first 3x3 call consumes positions 0-12 and puts
the start at (0,1); the second call continues at position 13 and puts the
start at (1,0), yielding a different grid. -/
theorem c8_two_calls_differ_cex :
    generate_mazeFull idS 0 3 3 =
      Except.ok ([[Cell.o, Cell.start, Cell.o],
        [Cell.wall, Cell.o, Cell.o],
        [Cell.wall, Cell.o, Cell.goal]], ((0 : ℤ), (1 : ℤ)), ((2 : ℤ), (2 : ℤ)), 13) ∧
    generate_mazeFull idS 13 3 3 =
      Except.ok ([[Cell.o, Cell.wall, Cell.wall],
        [Cell.start, Cell.o, Cell.o],
        [Cell.o, Cell.o, Cell.goal]], ((1 : ℤ), (0 : ℤ)), ((2 : ℤ), (2 : ℤ)), 26) ∧
    ([[Cell.o, Cell.start, Cell.o],
      [Cell.wall, Cell.o, Cell.o],
      [Cell.wall, Cell.o, Cell.goal]] : Maze) ≠
      [[Cell.o, Cell.wall, Cell.wall],
       [Cell.start, Cell.o, Cell.o],
       [Cell.o, Cell.o, Cell.goal]] ∧
    ((0 : ℤ), (1 : ℤ)) ≠ ((1 : ℤ), (0 : ℤ)) := by
  refine ⟨by decide, by decide, by decide, by decide⟩

/-- C8 amended: there is no seed parameter, so reproducibility holds only in
the weaker window sense - two calls with identical dimensions that read
identical values over their draw windows produce the same grid, the same
marker coordinates and the same number of draws consumed. -/
theorem c8_window_determinism (x y : ℤ) (s1 s2 : RandS) (p1 p2 : ℕ)
    (hw : ∀ k, k < drawCount x y → s1 (p1 + k) = s2 (p2 + k)) :
    relOutcome p1 (generate_mazeFull s1 p1 x y) =
      relOutcome p2 (generate_mazeFull s2 p2 x y) := by
  have h0 : s1 p1 = s2 p2 := by
    have := hw 0 (by unfold drawCount; omega)
    simpa using this
  by_cases hb1 : Int.fdiv x 3 < 0
  · have e1 : randint s1 p1 0 (Int.fdiv x 3) =
        Except.error GenErr.valueErrorEmptyRange := by
      unfold randint
      rw [if_pos hb1]
    have e1' : randint s2 p2 0 (Int.fdiv x 3) =
        Except.error GenErr.valueErrorEmptyRange := by
      unfold randint
      rw [if_pos hb1]
    simp only [generate_mazeFull, e1, e1', relOutcome]
  · have e1 : randint s1 p1 0 (Int.fdiv x 3) =
        Except.ok (0 + ((s1 p1 : ℤ)) % (Int.fdiv x 3 - 0 + 1), p1 + 1) := by
      unfold randint
      rw [if_neg hb1]
    have e1' : randint s2 p2 0 (Int.fdiv x 3) =
        Except.ok (0 + ((s1 p1 : ℤ)) % (Int.fdiv x 3 - 0 + 1), p2 + 1) := by
      unfold randint
      rw [if_neg hb1, h0]
    have h1 : s1 (p1 + 1) = s2 (p2 + 1) := hw 1 (by unfold drawCount; omega)
    by_cases hb2 : Int.fdiv y 3 < 0
    · have e2 : randint s1 (p1 + 1) 0 (Int.fdiv y 3) =
          Except.error GenErr.valueErrorEmptyRange := by
        unfold randint
        rw [if_pos hb2]
      have e2' : randint s2 (p2 + 1) 0 (Int.fdiv y 3) =
          Except.error GenErr.valueErrorEmptyRange := by
        unfold randint
        rw [if_pos hb2]
      simp only [generate_mazeFull, e1, e1', e2, e2', relOutcome]
    · have e2 : randint s1 (p1 + 1) 0 (Int.fdiv y 3) =
          Except.ok (0 + ((s1 (p1 + 1) : ℤ)) % (Int.fdiv y 3 - 0 + 1), p1 + 1 + 1) := by
        unfold randint
        rw [if_neg hb2]
      have e2' : randint s2 (p2 + 1) 0 (Int.fdiv y 3) =
          Except.ok (0 + ((s1 (p1 + 1) : ℤ)) % (Int.fdiv y 3 - 0 + 1), p2 + 1 + 1) := by
        unfold randint
        rw [if_neg hb2, h1]
      have h2 : s1 (p1 + 2) = s2 (p2 + 2) := hw 2 (by unfold drawCount; omega)
      have h2a : s1 (p1 + 1 + 1) = s2 (p2 + 1 + 1) := by
        have ea : p1 + 1 + 1 = p1 + 2 := by omega
        have eb : p2 + 1 + 1 = p2 + 2 := by omega
        rw [ea, eb]
        exact h2
      by_cases hb3 : x - 1 < Int.fdiv (2 * x) 3
      · have e3 : randint s1 (p1 + 1 + 1) (Int.fdiv (2 * x) 3) (x - 1) =
            Except.error GenErr.valueErrorEmptyRange := by
          unfold randint
          rw [if_pos hb3]
        have e3' : randint s2 (p2 + 1 + 1) (Int.fdiv (2 * x) 3) (x - 1) =
            Except.error GenErr.valueErrorEmptyRange := by
          unfold randint
          rw [if_pos hb3]
        simp only [generate_mazeFull, e1, e1', e2, e2', e3, e3', relOutcome]
      · have e3 : randint s1 (p1 + 1 + 1) (Int.fdiv (2 * x) 3) (x - 1) =
            Except.ok (Int.fdiv (2 * x) 3 +
              ((s1 (p1 + 1 + 1) : ℤ)) % (x - 1 - Int.fdiv (2 * x) 3 + 1),
              p1 + 1 + 1 + 1) := by
          unfold randint
          rw [if_neg hb3]
        have e3' : randint s2 (p2 + 1 + 1) (Int.fdiv (2 * x) 3) (x - 1) =
            Except.ok (Int.fdiv (2 * x) 3 +
              ((s1 (p1 + 1 + 1) : ℤ)) % (x - 1 - Int.fdiv (2 * x) 3 + 1),
              p2 + 1 + 1 + 1) := by
          unfold randint
          rw [if_neg hb3, h2a]
        have h3 : s1 (p1 + 3) = s2 (p2 + 3) := hw 3 (by unfold drawCount; omega)
        have h3a : s1 (p1 + 1 + 1 + 1) = s2 (p2 + 1 + 1 + 1) := by
          have ea : p1 + 1 + 1 + 1 = p1 + 3 := by omega
          have eb : p2 + 1 + 1 + 1 = p2 + 3 := by omega
          rw [ea, eb]
          exact h3
        by_cases hb4 : y - 1 < Int.fdiv (2 * y) 3
        · have e4 : randint s1 (p1 + 1 + 1 + 1) (Int.fdiv (2 * y) 3) (y - 1) =
              Except.error GenErr.valueErrorEmptyRange := by
            unfold randint
            rw [if_pos hb4]
          have e4' : randint s2 (p2 + 1 + 1 + 1) (Int.fdiv (2 * y) 3) (y - 1) =
              Except.error GenErr.valueErrorEmptyRange := by
            unfold randint
            rw [if_pos hb4]
          simp only [generate_mazeFull, e1, e1', e2, e2', e3, e3', e4, e4', relOutcome]
        · have e4 : randint s1 (p1 + 1 + 1 + 1) (Int.fdiv (2 * y) 3) (y - 1) =
              Except.ok (Int.fdiv (2 * y) 3 +
                ((s1 (p1 + 1 + 1 + 1) : ℤ)) % (y - 1 - Int.fdiv (2 * y) 3 + 1),
                p1 + 1 + 1 + 1 + 1) := by
            unfold randint
            rw [if_neg hb4]
          have e4' : randint s2 (p2 + 1 + 1 + 1) (Int.fdiv (2 * y) 3) (y - 1) =
              Except.ok (Int.fdiv (2 * y) 3 +
                ((s1 (p1 + 1 + 1 + 1) : ℤ)) % (y - 1 - Int.fdiv (2 * y) 3 + 1),
                p2 + 1 + 1 + 1 + 1) := by
            unfold randint
            rw [if_neg hb4, h3a]
          have hwpw : ∀ k, k < (cellsList x.toNat y.toNat).length →
              s1 (p1 + 1 + 1 + 1 + 1 + k) = s2 (p2 + 1 + 1 + 1 + 1 + k) := by
            intro k hk
            rw [cellsList_length] at hk
            have hkk := hw (4 + k) (by unfold drawCount; omega)
            have ea : p1 + 1 + 1 + 1 + 1 + k = p1 + (4 + k) := by omega
            have eb : p2 + 1 + 1 + 1 + 1 + k = p2 + (4 + k) := by omega
            rw [ea, eb]
            exact hkk
          obtain ⟨mF, hpw1, hpw2⟩ := place_walls_window s1 s2
            (cellsList x.toNat y.toNat)
            (setCell (setCell (List.replicate x.toNat (List.replicate y.toNat Cell.o))
              (0 + ((s1 p1 : ℤ)) % (Int.fdiv x 3 - 0 + 1),
               0 + ((s1 (p1 + 1) : ℤ)) % (Int.fdiv y 3 - 0 + 1)) Cell.start)
              (Int.fdiv (2 * x) 3 +
                ((s1 (p1 + 1 + 1) : ℤ)) % (x - 1 - Int.fdiv (2 * x) 3 + 1),
               Int.fdiv (2 * y) 3 +
                ((s1 (p1 + 1 + 1 + 1) : ℤ)) % (y - 1 - Int.fdiv (2 * y) 3 + 1))
              Cell.goal)
            (p1 + 1 + 1 + 1 + 1) (p2 + 1 + 1 + 1 + 1) hwpw
          have hL : p1 + 1 + 1 + 1 + 1 + (cellsList x.toNat y.toNat).length - p1 =
              p2 + 1 + 1 + 1 + 1 + (cellsList x.toNat y.toNat).length - p2 := by
            omega
          simp only [generate_mazeFull, e1, e1', e2, e2', e3, e3', e4, e4',
            hpw1, hpw2, relOutcome, hL]

theorem c8_window_determinism_witness :
    (∀ k, k < drawCount 2 2 → shiftS 3 (0 + k) = idS (3 + k)) ∧
    relOutcome 0 (generate_mazeFull (shiftS 3) 0 2 2) =
      relOutcome 3 (generate_mazeFull idS 3 2 2) :=
  ⟨fun k _ => by simp [shiftS, idS],
   c8_window_determinism 2 2 (shiftS 3) idS 0 3
     (fun k _ => by simp [shiftS, idS])⟩

/-- C2 amended: on a strict improvement the code does update came_from,
g_score and f_score, but it re-inserts the neighbor into the frontier only
when no entry for that coordinate is already present - the membership-checked
push of line 125 - and it can afford that skip because every reachable
frontier holds at most one entry per coordinate. -/
theorem c2_update_skips_reinsert :
    (∀ (maze : Maze) (st gl : Coord) (k : ℕ) (s : SState),
      Rect maze →
      find_positions maze Cell.start Cell.goal = (some st, some gl) →
      stateAfter maze k = some s →
      (s.open_set.map Prod.snd).Nodup) ∧
    (∀ (gl current n : Coord) (s : SState) (g : ℕ),
      cellAt s.maze n ≠ some Cell.wall →
      getv s.g_score current = some g →
      (∀ gn, getv s.g_score n = some gn → g + 1 < gn) →
      (visit_neighbor gl current s n).came_from = setv s.came_from n current ∧
      (visit_neighbor gl current s n).g_score = setv s.g_score n (g + 1) ∧
      (visit_neighbor gl current s n).f_score =
        setv s.f_score n (g + 1 + heuristic n gl) ∧
      (visit_neighbor gl current s n).open_set =
        (if s.open_set.any (fun e => decide (e.2 = n)) then s.open_set
          else s.open_set ++ [(g + 1 + heuristic n gl, n)])) := by
  constructor
  · intro maze st gl k s hR hfp hsa
    unfold stateAfter at hsa
    simp only [hfp] at hsa
    injection hsa with hsa
    subst hsa
    exact (inv_stateAfter maze hR st gl hfp k).open_nodup
  · intro gl current n s g hwall hgc himp
    unfold visit_neighbor
    rw [if_neg hwall]
    simp only [hgc, Option.getD_some]
    cases hgn : getv s.g_score n with
    | none =>
      simp only [hgn, if_pos]
      exact mark_fields
        { s with
          came_from := setv s.came_from n current
          g_score := setv s.g_score n (g + 1)
          f_score := setv s.f_score n (g + 1 + heuristic n gl)
          open_set :=
            if s.open_set.any (fun e => decide (e.2 = n)) then s.open_set
            else s.open_set ++ [(g + 1 + heuristic n gl, n)] } n
    | some gOld =>
      have himp2 : g + 1 < gOld := himp gOld hgn
      simp only [hgn]
      rw [if_pos (decide_eq_true himp2)]
      exact mark_fields
        { s with
          came_from := setv s.came_from n current
          g_score := setv s.g_score n (g + 1)
          f_score := setv s.f_score n (g + 1 + heuristic n gl)
          open_set :=
            if s.open_set.any (fun e => decide (e.2 = n)) then s.open_set
            else s.open_set ++ [(g + 1 + heuristic n gl, n)] } n

theorem c2_update_skips_reinsert_witness :
    (Rect mazeOpt ∧
      find_positions mazeOpt Cell.start Cell.goal =
        (some ((2 : ℤ), (0 : ℤ)), some ((1 : ℤ), (4 : ℤ))) ∧
      stateAfter mazeOpt 0 =
        some (init_state mazeOpt ((2 : ℤ), (0 : ℤ)) ((1 : ℤ), (4 : ℤ)))) ∧
    (((init_state mazeOpt ((2 : ℤ), (0 : ℤ))
        ((1 : ℤ), (4 : ℤ))).open_set.map Prod.snd).Nodup) :=
  ⟨⟨by decide, by decide, by decide⟩,
    c2_update_skips_reinsert.1 mazeOpt ((2 : ℤ), (0 : ℤ)) ((1 : ℤ), (4 : ℤ)) 0
      (init_state mazeOpt ((2 : ℤ), (0 : ℤ)) ((1 : ℤ), (4 : ℤ)))
      (by decide) (by decide) (by decide)⟩

/-- C6: the claim is the specification's explicit requirement and the code
violates it: on a 1-by-1 grid every random draw collapses onto (0,0), start
and goal sample to the identical coordinate, and the goal marker written
second silently overwrites the start marker - no re-roll happens. For every
random state, the generated grid is [[goal]] with no Start cell at all, so
the later search reports it exactly like a no-path maze. -/
theorem c6_goal_overwrites_start (s : RandS) (p : ℕ) :
    generate_mazeFull s p 1 1 =
      Except.ok ([[Cell.goal]], ((0 : ℤ), (0 : ℤ)), ((0 : ℤ), (0 : ℤ)), p + 5) ∧
    countCell [[Cell.goal]] Cell.start = 0 ∧
    (find_positions [[Cell.goal]] Cell.start Cell.goal).1 = none := by
  refine ⟨?_, by decide, by decide⟩
  have h1 : ∀ q : ℕ, randint s q 0 (Int.fdiv 1 3) = Except.ok (0, q + 1) := by
    intro q
    unfold randint
    rw [if_neg (by decide)]
    have he : Int.fdiv 1 3 - 0 + 1 = 1 := by decide
    rw [he, Int.emod_one]
    norm_num
  have h3 : ∀ q : ℕ, randint s q (Int.fdiv (2 * 1) 3) (1 - 1) = Except.ok (0, q + 1) := by
    intro q
    unfold randint
    rw [if_neg (by decide)]
    have he : (1 : ℤ) - 1 - Int.fdiv (2 * 1) 3 + 1 = 1 := by decide
    rw [he, Int.emod_one]
    have h0 : Int.fdiv (2 * 1) 3 = 0 := by decide
    rw [h0]
    norm_num
  have hr : ∀ q : ℕ, randint s q 0 100 =
      Except.ok (0 + ((s q : ℤ)) % (100 - 0 + 1), q + 1) := by
    intro q
    unfold randint
    rw [if_neg (by decide)]
  have hv : is_valid_wall_location [[Cell.goal]] ((0 : ℤ), (0 : ℤ)) = false := by
    decide
  have hm : setCell (setCell (List.replicate (1 : ℤ).toNat
      (List.replicate (1 : ℤ).toNat Cell.o)) (0, 0) Cell.start)
      ((0 : ℤ), (0 : ℤ)) Cell.goal = [[Cell.goal]] := by decide
  have hcells : cellsList (1 : ℤ).toNat (1 : ℤ).toNat = [((0 : ℤ), (0 : ℤ))] := by
    decide
  have hpw : ∀ q : ℕ, place_walls s (cellsList (1 : ℤ).toNat (1 : ℤ).toNat)
      [[Cell.goal]] q = Except.ok ([[Cell.goal]], q + 1) := by
    intro q
    rw [hcells]
    unfold place_walls
    simp only [hr]
    rw [hv]
    simp only [Bool.and_false, Bool.false_eq_true, if_false]
    unfold place_walls
    rfl
  unfold generate_mazeFull
  simp only [h1, h3, hm, hpw]

/-- C7 counterexample: at rows = 0 the generation call does fail, but with
the ValueError random.randint raises on an empty range, not with any
distinct InvalidDimensions error - the code performs no dimension
validation at all (and has no wall-probability parameter). -/
theorem c7_wrong_error_cex :
    generate_maze idS 0 0 5 = Except.error GenErr.valueErrorEmptyRange ∧
    generate_maze idS 0 0 5 ≠ Except.error GenErr.invalidDimensions ∧
    GenErr.valueErrorEmptyRange ≠ GenErr.invalidDimensions := by
  refine ⟨by decide, by decide, by decide⟩

/-- C7 amended: for every call with rows < 1 or cols < 1 the generation
fails - by propagating the empty-range ValueError of random.randint, the
only failure the code can produce - and no grid is returned. There is no
wall-probability parameter (the density 35 is hard-wired) and no distinct
InvalidDimensions error. -/
theorem c7_nonpositive_dims_fail (x y : ℤ) (s : RandS) (p : ℕ)
    (h : x < 1 ∨ y < 1) :
    generate_maze s p x y = Except.error GenErr.valueErrorEmptyRange := by
  have herr : ∀ (q : ℕ) (a b : ℤ), b < a →
      randint s q a b = Except.error GenErr.valueErrorEmptyRange := by
    intro q a b hba
    unfold randint
    rw [if_pos hba]
  have hok : ∀ (q : ℕ) (a b : ℤ), ¬b < a →
      randint s q a b = Except.ok (a + ((s q : ℤ)) % (b - a + 1), q + 1) := by
    intro q a b hba
    unfold randint
    rw [if_neg hba]
  suffices hF : generate_mazeFull s p x y = Except.error GenErr.valueErrorEmptyRange by
    unfold generate_maze
    rw [hF]
  by_cases hx1 : x < 1
  · by_cases hx0 : x < 0
    · have he1 : randint s p 0 (Int.fdiv x 3) =
          Except.error GenErr.valueErrorEmptyRange := by
        apply herr
        rw [Int.fdiv_eq_ediv _ (by omega)]
        exact Int.ediv_neg' hx0 (by omega)
      unfold generate_mazeFull
      simp only [he1]
    · have hx00 : x = 0 := by omega
      subst hx00
      have he1 : randint s p 0 (Int.fdiv 0 3) = Except.ok (0, p + 1) := by
        rw [hok p 0 (Int.fdiv 0 3) (by decide)]
        norm_num
      by_cases hy0 : y < 0
      · have he2 : randint s (p + 1) 0 (Int.fdiv y 3) =
            Except.error GenErr.valueErrorEmptyRange := by
          apply herr
          rw [Int.fdiv_eq_ediv _ (by omega)]
          exact Int.ediv_neg' hy0 (by omega)
        unfold generate_mazeFull
        simp only [he1, he2]
      · have he2 : randint s (p + 1) 0 (Int.fdiv y 3) =
            Except.ok (0 + ((s (p + 1) : ℤ)) % (Int.fdiv y 3 - 0 + 1), p + 1 + 1) := by
          apply hok
          have : 0 ≤ Int.fdiv y 3 := by
            rw [Int.fdiv_eq_ediv _ (by omega)]
            exact Int.ediv_nonneg (by omega) (by omega)
          omega
        have he3 : randint s (p + 1 + 1) (Int.fdiv (2 * 0) 3) (0 - 1) =
            Except.error GenErr.valueErrorEmptyRange := by
          apply herr
          decide
        unfold generate_mazeFull
        simp only [he1, he2, he3]
  · have hy1 : y < 1 := by
      rcases h with hx | hy
      · exact absurd hx hx1
      · exact hy
    have hfx : 0 ≤ Int.fdiv x 3 := by
      rw [Int.fdiv_eq_ediv _ (by omega)]
      exact Int.ediv_nonneg (by omega) (by omega)
    have he1 : randint s p 0 (Int.fdiv x 3) =
        Except.ok (0 + ((s p : ℤ)) % (Int.fdiv x 3 - 0 + 1), p + 1) := by
      apply hok
      omega
    by_cases hy0 : y < 0
    · have he2 : randint s (p + 1) 0 (Int.fdiv y 3) =
          Except.error GenErr.valueErrorEmptyRange := by
        apply herr
        rw [Int.fdiv_eq_ediv _ (by omega)]
        exact Int.ediv_neg' hy0 (by omega)
      unfold generate_mazeFull
      simp only [he1, he2]
    · have hy00 : y = 0 := by omega
      subst hy00
      have he2 : randint s (p + 1) 0 (Int.fdiv 0 3) = Except.ok (0, p + 1 + 1) := by
        rw [hok (p + 1) 0 (Int.fdiv 0 3) (by decide)]
        norm_num
      have he3 : randint s (p + 1 + 1) (Int.fdiv (2 * x) 3) (x - 1) =
          Except.ok (Int.fdiv (2 * x) 3 +
            ((s (p + 1 + 1) : ℤ)) % (x - 1 - Int.fdiv (2 * x) 3 + 1), p + 1 + 1 + 1) := by
        apply hok
        have h1 := Int.ediv_add_emod (2 * x) 3
        have h2 := Int.emod_nonneg (2 * x) (by omega : (3 : ℤ) ≠ 0)
        have h3 := Int.emod_lt_of_pos (2 * x) (by omega : (0 : ℤ) < 3)
        have h4 : Int.fdiv (2 * x) 3 = 2 * x / 3 := Int.fdiv_eq_ediv _ (by omega)
        omega
      have he4 : randint s (p + 1 + 1 + 1) (Int.fdiv (2 * 0) 3) (0 - 1) =
          Except.error GenErr.valueErrorEmptyRange := by
        apply herr
        decide
      unfold generate_mazeFull
      simp only [he1, he2, he3, he4]

theorem c7_nonpositive_dims_fail_witness :
    ((0 : ℤ) < 1 ∨ (5 : ℤ) < 1) ∧
    generate_maze idS 0 0 5 = Except.error GenErr.valueErrorEmptyRange :=
  ⟨Or.inl (by norm_num),
    c7_nonpositive_dims_fail 0 5 idS 0 (Or.inl (by norm_num))⟩

/-- C5: for every rows >= 1, cols >= 1 and every random state the generation
succeeds and the returned grid has no wall at the start cell, no wall at the
goal cell, no wall at any cell orthogonally adjacent to either marker, and
every cell that is not a start, goal or wall cell is Open. -/
theorem c5_generated_walls_safe (x y : ℤ) (s : RandS) (p : ℕ)
    (hx : 1 ≤ x) (hy : 1 ≤ y) :
    ∃ mz st en pF,
      generate_mazeFull s p x y = Except.ok (mz, st, en, pF) ∧
      cellAt mz st ≠ some Cell.wall ∧
      cellAt mz en ≠ some Cell.wall ∧
      (∀ c, (unit_step c st ∨ unit_step c en) → cellAt mz c ≠ some Cell.wall) ∧
      (∀ c v, cellAt mz c = some v → v ≠ Cell.start → v ≠ Cell.goal →
        v ≠ Cell.wall → v = Cell.o) := by
  obtain ⟨hbx1, hbx2, hbx3, hbx4⟩ := fdiv3_bounds x hx
  obtain ⟨hby1, hby2, hby3, hby4⟩ := fdiv3_bounds y hy
  obtain ⟨sr, e1, v1a, v1b⟩ := randint_ok_exists s p 0 (Int.fdiv x 3) hbx1
  obtain ⟨sc, e2, v2a, v2b⟩ := randint_ok_exists s (p + 1) 0 (Int.fdiv y 3) hby1
  obtain ⟨er, e3, v3a, v3b⟩ :=
    randint_ok_exists s (p + 1 + 1) (Int.fdiv (2 * x) 3) (x - 1) hbx4
  obtain ⟨ec, e4, v4a, v4b⟩ :=
    randint_ok_exists s (p + 1 + 1 + 1) (Int.fdiv (2 * y) 3) (y - 1) hby4
  have hsr1 : sr ≤ x - 1 := le_trans v1b hbx2
  have hsc1 : sc ≤ y - 1 := le_trans v2b hby2
  have her0 : 0 ≤ er := le_trans hbx3 v3a
  have hec0 : 0 ≤ ec := le_trans hby3 v4a
  obtain ⟨hIbs, hIbe, hIms, hIme, hInw, hIuniv⟩ :=
    maze2_inv x.toNat y.toNat sr sc er ec
      v1a (by omega) v2a (by omega) her0 (by omega) hec0 (by omega)
  obtain ⟨mF, hpw, -⟩ := place_walls_window s s (cellsList x.toNat y.toNat)
    (markedGrid x.toNat y.toNat sr sc er ec)
    (p + 1 + 1 + 1 + 1) (p + 1 + 1 + 1 + 1) (fun k _ => rfl)
  obtain ⟨hFs, hFe, hFadj, hFuniv⟩ := place_walls_preserve s (sr, sc) (er, ec)
    (cellsList x.toNat y.toNat) (markedGrid x.toNat y.toNat sr sc er ec)
    (p + 1 + 1 + 1 + 1) mF
    (p + 1 + 1 + 1 + 1 + (cellsList x.toNat y.toNat).length)
    hpw hIbs hIbe hIms hIme (fun c _ => hInw c) hIuniv
  have hpw' := hpw
  simp only [markedGrid] at hpw'
  refine ⟨mF, (sr, sc), (er, ec),
    p + 1 + 1 + 1 + 1 + (cellsList x.toNat y.toNat).length,
    ?_, ?_, ?_, hFadj, ?_⟩
  · simp only [generate_mazeFull, e1, e2, e3, e4, hpw']
  · intro hcon
    rcases hFs with hh | hh
    · rw [hh] at hcon
      exact absurd hcon (by decide)
    · rw [hh] at hcon
      exact absurd hcon (by decide)
  · rw [hFe]
    decide
  · intro c v hcv h1 h2 h3
    rcases hFuniv c v hcv with hh | hh | hh | hh
    · exact hh
    · exact absurd hh h3
    · exact absurd hh h1
    · exact absurd hh h2

theorem c5_generated_walls_safe_witness :
    (1 : ℤ) ≤ 3 ∧ (1 : ℤ) ≤ 3 ∧
    ∃ mz st en pF,
      generate_mazeFull idS 0 3 3 = Except.ok (mz, st, en, pF) ∧
      cellAt mz st ≠ some Cell.wall ∧
      cellAt mz en ≠ some Cell.wall ∧
      (∀ c, (unit_step c st ∨ unit_step c en) → cellAt mz c ≠ some Cell.wall) ∧
      (∀ c v, cellAt mz c = some v → v ≠ Cell.start → v ≠ Cell.goal →
        v ≠ Cell.wall → v = Cell.o) :=
  ⟨by norm_num, by norm_num,
    c5_generated_walls_safe 3 3 idS 0 (by norm_num) (by norm_num)⟩

theorem c4_path_shape_witness :
    ([((0 : ℤ), (1 : ℤ)), (0, 2), (1, 2), (2, 2)] : List Coord) ≠ [] ∧
    List.Chain' unit_step
      (((0 : ℤ), (0 : ℤ)) :: [((0 : ℤ), (1 : ℤ)), (0, 2), (1, 2), (2, 2)]) ∧
    ([((0 : ℤ), (1 : ℤ)), (0, 2), (1, 2), (2, 2)] : List Coord).getLast? =
      some (2, 2) ∧
    ((0 : ℤ), (0 : ℤ)) ∉ ([((0 : ℤ), (1 : ℤ)), (0, 2), (1, 2), (2, 2)] : List Coord) :=
  c4_path_shape mazeDiag (0, 0) (2, 2) [(0, 1), (0, 2), (1, 2), (2, 2)]
    (by decide) (by decide) (by decide) (by decide) (by decide)

end AStarMaze
